import Mathlib

/-!
Verification of the graph-container engine of the `graphic` repository
(`src/graph.cpp`, `src/node.cpp`, `src/edge.cpp`, `src/unnamed/part_006`
= `canvasscene.cpp`).

Two shallow embeddings are developed:

* `Geom` — the geometric layer of `Graph` (`src/graph.cpp`):
  `setRotation`, `boundingBox` (its two independent accumulations are
  split into the scene-coordinate accumulation `boundingBoxScene` and the
  graph-relative accumulation `rgFold`/`boundingBoxRGcenter`), and
  `centerGraph`.  Positions, diameters and rotation angles (`qreal`,
  degrees) are modelled as rationals; the map from graph-local
  coordinates to scene coordinates (Qt's `scenePos()`, a rotation by the
  item rotation followed by a translation by the item position) is
  modelled over the reals, where the trigonometric functions live.

* `Canvas` — the structural layer of `canvasscene.cpp`: the list
  `canvasGraphList` of containers, each owning node ids and edges
  (pairs of endpoint ids, `Edge::source`/`Edge::dest`); the operations
  `searchAndSeparate`, node deletion and edge deletion
  (`mousePressEvent`, deletion mode), and the two- and four-node join
  (`keyReleaseEvent`, key `j`).  A node's `edgeList` is represented by
  the edges incident to the id; `Node::checked`-marked breadth-first
  search is represented by the reachability closure it computes.
  Geometric fields (positions, rotations, labels, the join animation and
  the z-value/renumbering cosmetics) do not affect the structural claims
  and are tracked by the `Geom` model instead.
-/

namespace Geom

/-- A `Node` (node.cpp): its position `pos()` relative to the owning
graph, its diameter (inches), and its own item rotation. -/
structure Node where
  pos : ℚ × ℚ
  diameter : ℚ
  rotation : ℚ
deriving DecidableEq, Repr

/-- An `Edge` (edge.cpp): only its item rotation matters to the
geometric layer (endpoint geometry is derived from its nodes). -/
structure Edge where
  rotation : ℚ
deriving DecidableEq, Repr

/-- A `Graph` (graph.cpp): a container item with a position in the
scene, an item rotation (degrees), and its `Node`/`Edge` children. -/
structure Graph where
  pos : ℚ × ℚ
  rotation : ℚ
  nodes : List Node
  edges : List Edge
deriving DecidableEq, Repr

/-- `Graph::setRotation(rotationAmount, rotationIsRelative)`:
`newRotation` is the previous rotation plus the amount when relative,
else the amount; every child `Node` and `Edge` gets its rotation set to
`-newRotation`; finally the graph's own rotation becomes `newRotation`. -/
def setRotation (g : Graph) (rotationAmount : ℚ) (rotationIsRelative : Bool) : Graph :=
  let newRotation := if rotationIsRelative then g.rotation + rotationAmount else rotationAmount
  { g with
    rotation := newRotation
    nodes := g.nodes.map (fun n => { n with rotation := -newRotation })
    edges := g.edges.map (fun e => { e with rotation := -newRotation }) }

/-- Accumulator for the graph-relative (`RG`) running extremes of
`Graph::boundingBox`: the `firstNode` flag and `RGminx`/`RGmaxx`/
`RGminy`/`RGmaxy`, all initially `0` as in the C++ locals. -/
structure RGAcc where
  firstNode : Bool
  RGminx : ℚ
  RGmaxx : ℚ
  RGminy : ℚ
  RGmaxy : ℚ
deriving DecidableEq, Repr

/-- One node of the `RG` accumulation of `Graph::boundingBox`: on the
first node all four extremes are set to its coordinates; afterwards the
update is `if (RGx > RGmaxx) RGmaxx = RGx; else if (RGx < RGminx)
RGminx = RGx;` (and the same in `y`). -/
def rgStep (acc : RGAcc) (n : Node) : RGAcc :=
  let RGx := n.pos.1
  let RGy := n.pos.2
  if acc.firstNode then
    ⟨false, RGx, RGx, RGy, RGy⟩
  else
    { firstNode := false
      RGmaxx := if RGx > acc.RGmaxx then RGx else acc.RGmaxx
      RGminx := if RGx > acc.RGmaxx then acc.RGminx
                else if RGx < acc.RGminx then RGx else acc.RGminx
      RGmaxy := if RGy > acc.RGmaxy then RGy else acc.RGmaxy
      RGminy := if RGy > acc.RGmaxy then acc.RGminy
                else if RGy < acc.RGminy then RGy else acc.RGminy }

/-- The `RG` accumulation of `Graph::boundingBox` over all node
children, in child order. -/
def rgFold (ns : List Node) : RGAcc := ns.foldl rgStep ⟨true, 0, 0, 0, 0⟩

/-- The third output of `Graph::boundingBox` (`RGcenter`): the midpoint
of the accumulated graph-relative extremes of the node positions. -/
def boundingBoxRGcenter (g : Graph) : ℚ × ℚ :=
  let a := rgFold g.nodes
  ((a.RGmaxx + a.RGminx) / 2, (a.RGmaxy + a.RGminy) / 2)

/-- `Graph::centerGraph()`: obtain `RGcenter` from
`boundingBox(nullptr, false, &RGcenter)`, subtract it from every node
child's position, and add it to the graph's own position. -/
def centerGraph (g : Graph) : Graph :=
  let RGcenter := boundingBoxRGcenter g
  { g with
    nodes := g.nodes.map
      (fun n => { n with pos := (n.pos.1 - RGcenter.1, n.pos.2 - RGcenter.2) })
    pos := (g.pos.1 + RGcenter.1, g.pos.2 + RGcenter.2) }

/-- Sum of the node children's graph-relative positions (used to state
the "positions sum to the zero vector" reading of the centroid claim). -/
def sumPos (ns : List Node) : ℚ × ℚ :=
  ns.foldl (fun a n => (a.1 + n.pos.1, a.2 + n.pos.2)) (0, 0)

/-- Degrees (Qt item rotations) to radians. -/
noncomputable def radOfDeg (d : ℚ) : ℝ := (d : ℝ) * Real.pi / 180

/-- Qt's `scenePos()` for a child at graph-local position `p` of graph
`g` (one level of nesting only): rotate `p` by the graph's rotation
about the graph origin, then translate by the graph's position. -/
noncomputable def scenePos (g : Graph) (p : ℚ × ℚ) : ℝ × ℝ :=
  (↑g.pos.1 + (Real.cos (radOfDeg g.rotation) * ↑p.1
                - Real.sin (radOfDeg g.rotation) * ↑p.2),
   ↑g.pos.2 + (Real.sin (radOfDeg g.rotation) * ↑p.1
                + Real.cos (radOfDeg g.rotation) * ↑p.2))

/-- The scene positions of the node children, in child order. -/
noncomputable def nodeScenePositions (g : Graph) : List (ℝ × ℝ) :=
  g.nodes.map (fun n => scenePos g n.pos)

/-- Accumulator for the scene-coordinate running extremes of
`Graph::boundingBox` (`minx`/`maxx`/`miny`/`maxy`). -/
structure BBAcc where
  firstNode : Bool
  minx : ℝ
  maxx : ℝ
  miny : ℝ
  maxy : ℝ

/-- One node of the scene accumulation of `Graph::boundingBox`:
`x`/`y` are the node's scene coordinates, `r` is the node radius
converted to scene units (`getDiameter() / 2 * currentPhysicalDPI`)
when `useNodeSizes`, else `0`.  On the first node all extremes are set;
afterwards the update is `if (x + r > maxx) maxx = x + r; else if
(x - r < minx) minx = x - r;` (and the same in `y`). -/
noncomputable def bbStep (currentPhysicalDPI : ℝ) (useNodeSizes : Bool) (g : Graph)
    (acc : BBAcc) (n : Node) : BBAcc :=
  let x := (scenePos g n.pos).1
  let y := (scenePos g n.pos).2
  let r := if useNodeSizes then (n.diameter : ℝ) / 2 * currentPhysicalDPI else 0
  if acc.firstNode then
    ⟨false, x - r, x + r, y - r, y + r⟩
  else
    { firstNode := false
      maxx := if x + r > acc.maxx then x + r else acc.maxx
      minx := if x + r > acc.maxx then acc.minx
              else if x - r < acc.minx then x - r else acc.minx
      maxy := if y + r > acc.maxy then y + r else acc.maxy
      miny := if y + r > acc.maxy then acc.miny
              else if y - r < acc.miny then y - r else acc.miny }

/-- The scene accumulation of `Graph::boundingBox` over all node
children, in child order; the returned rectangle's x-range is
`[minx, maxx]` and its y-range is `[miny, maxy]`. -/
noncomputable def boundingBoxScene (currentPhysicalDPI : ℝ) (useNodeSizes : Bool)
    (g : Graph) : BBAcc :=
  g.nodes.foldl (bbStep currentPhysicalDPI useNodeSizes g) ⟨true, 0, 0, 0, 0⟩

/-- The specification's reading of the bounding box's left edge: the
minimum over node children of (scene x minus radius in scene units).
Zero for a childless graph. -/
noncomputable def specBBminX (currentPhysicalDPI : ℝ) (g : Graph) : ℝ :=
  match g.nodes.map
      (fun n => (scenePos g n.pos).1 - (n.diameter : ℝ) / 2 * currentPhysicalDPI) with
  | [] => 0
  | x :: xs => xs.foldl min x

/-- Translate a node's graph-relative position by `-c` (the per-node
update `centerGraph` performs). -/
def shiftNode (c : ℚ × ℚ) (n : Node) : Node :=
  { n with pos := (n.pos.1 - c.1, n.pos.2 - c.2) }

/-- Translate all four accumulated extremes by `-c`. -/
def shiftAcc (c : ℚ × ℚ) (a : RGAcc) : RGAcc :=
  ⟨a.firstNode, a.RGminx - c.1, a.RGmaxx - c.1, a.RGminy - c.2, a.RGmaxy - c.2⟩

end Geom

namespace Canvas

/-- An `Edge` of the structural layer: references to its two endpoint
node ids (`Edge::source`, `Edge::dest`). -/
structure Edge where
  src : ℕ
  dst : ℕ
deriving DecidableEq, Repr, Inhabited

/-- A `Graph` container of the structural layer: the ids of its `Node`
children and its `Edge` children, in child order. -/
structure Graph where
  nodes : List ℕ
  edges : List Edge
deriving DecidableEq, Repr, Inhabited

/-- The canvas state: `canvasGraphList`, the list of live containers. -/
structure Scene where
  graphs : List Graph
deriving DecidableEq, Repr, Inhabited

/-- `e` is in node `x`'s `edgeList`: `x` is one of its endpoints. -/
def incident (x : ℕ) (e : Edge) : Prop := e.src = x ∨ e.dst = x

instance (x : ℕ) (e : Edge) : Decidable (incident x e) := by
  unfold incident; infer_instance

/-- All edges on the canvas, in graph order (a node's `edgeList` is the
sublist of these incident to it). -/
def allEdges (sc : Scene) : List Edge := sc.graphs.flatMap Graph.edges

/-- All node ids on the canvas, in graph order. -/
def allNodes (sc : Scene) : List ℕ := sc.graphs.flatMap Graph.nodes

/-- Edge adjacency between node ids over an edge list (the relation the
`checked`-marked search of `searchAndSeparate` walks). -/
def adjE (es : List Edge) (x y : ℕ) : Prop :=
  ∃ e ∈ es, (e.src = x ∧ e.dst = y) ∨ (e.src = y ∧ e.dst = x)

/-- Reachability between node ids via the edges `es` (the
reflexive-transitive closure of edge adjacency); the breadth-first
search of `searchAndSeparate` computes exactly this relation
(`reach_iff_reaches`). -/
def Reaches (es : List Edge) (a b : ℕ) : Prop :=
  Relation.ReflTransGen (adjE es) a b

/-- One expansion round of the reachable set: keep `s` and add both
endpoints of every edge touching `s`. -/
def expandOnce (es : List Edge) (s : List ℕ) : List ℕ :=
  s ++ (es.filter (fun e => decide (e.src ∈ s) || decide (e.dst ∈ s))).flatMap
    (fun e => [e.src, e.dst])

/-- Iterate `expandOnce`. -/
def closureAux (es : List Edge) : ℕ → List ℕ → List ℕ
  | 0, s => s
  | f + 1, s => closureAux es f (expandOnce es s)

/-- The set of node ids reachable from `start` through `es`: the fixed
point of `expandOnce` (reached within `2·|es| + 1` rounds).  This is
the set of nodes the breadth-first traversal of
`CanvasScene::searchAndSeparate` marks `checked` and collects into
`graphItems` when started at `start`. -/
def closure (es : List Edge) (start : ℕ) : List ℕ :=
  closureAux es (2 * es.length + 1) [start]

/-- `b` is reachable from `a` via the edges `es`. -/
def Reach (es : List Edge) (a b : ℕ) : Prop := b ∈ closure es a

instance (es : List Edge) (a b : ℕ) : Decidable (Reach es a b) := by
  unfold Reach; infer_instance

/-- All pairs of a container's node children are mutually reachable via
its edge children. -/
def Connected (g : Graph) : Prop :=
  ∀ a ∈ g.nodes, ∀ b ∈ g.nodes, Reach g.edges a b

instance (g : Graph) : Decidable (Connected g) := by
  unfold Connected; infer_instance

/-- Well-formedness of the canvas (the state the program maintains):
globally unique node ids; every edge's endpoints are node children of
the edge's own container; no self-loop edges (freestyle mode refuses
them, and no generator makes them); and every container is connected. -/
def WF (sc : Scene) : Prop :=
  (allNodes sc).Nodup ∧
  (∀ g ∈ sc.graphs, ∀ e ∈ g.edges, e.src ∈ g.nodes ∧ e.dst ∈ g.nodes) ∧
  (∀ g ∈ sc.graphs, ∀ e ∈ g.edges, e.src ≠ e.dst) ∧
  (∀ g ∈ sc.graphs, Connected g)

instance (sc : Scene) : Decidable (WF sc) := by
  unfold WF; infer_instance

/-- The structural part of well-formedness (maintained by the program
independently of connectivity): globally unique node ids, edges
internal to their own container, no self-loops. -/
def SWF (sc : Scene) : Prop :=
  (allNodes sc).Nodup ∧
  (∀ g ∈ sc.graphs, ∀ e ∈ g.edges, e.src ∈ g.nodes ∧ e.dst ∈ g.nodes) ∧
  (∀ g ∈ sc.graphs, ∀ e ∈ g.edges, e.src ≠ e.dst)

/-- Connectivity of a container outside a set `G` of exempt ("ghost")
nodes: all pairs of non-exempt node children are mutually reachable via
the container's edge children.  (`AlmostConn [] g` is plain
connectivity; during node deletion the doomed node, whose incident
edges are already gone, is the one exempt node until it is removed.) -/
def AlmostConn (G : List ℕ) (g : Graph) : Prop :=
  ∀ a ∈ g.nodes, a ∉ G → ∀ b ∈ g.nodes, b ∉ G → Reaches g.edges a b

/-- Loop invariant of `searchAndSeparate` at outer index `i`: every
container is either connected (outside the ghosts `G`) or all its
non-ghost nodes reach some not-yet-processed affected node
`L[k]`, `i ≤ k`, lying in the same container. -/
def GoodAt (G L : List ℕ) (i : ℕ) (sc : Scene) : Prop :=
  ∀ g ∈ sc.graphs, AlmostConn G g ∨
    (∀ y ∈ g.nodes, y ∈ G ∨ ∃ k, i ≤ k ∧ k < L.length ∧
      L.getD k 0 ∈ g.nodes ∧ Reaches g.edges y (L.getD k 0))

/-- Move the component `comp` (its nodes, plus every edge touching it)
out of all containers into a freshly created `Graph` appended to
`canvasGraphList` — the re-parenting loop of `searchAndSeparate`.
(Each moved item's position is re-expressed via `scenePos()` and its
rotation reset to 0; see the `Geom` layer.) -/
def moveComp (sc : Scene) (comp : List ℕ) : Scene :=
  { graphs :=
      sc.graphs.map (fun g =>
        { nodes := g.nodes.filter (fun n => decide (n ∉ comp))
          edges := g.edges.filter (fun e =>
            decide (e.src ∉ comp) && decide (e.dst ∉ comp)) }) ++
      [{ nodes := sc.graphs.flatMap (fun g => g.nodes.filter (fun n => decide (n ∈ comp)))
         edges := sc.graphs.flatMap (fun g => g.edges.filter (fun e =>
           decide (e.src ∈ comp) || decide (e.dst ∈ comp))) }] }

/-- `i++; while (skipList.contains(i)) i++;` — advance the index past
the current one and all indices in the skip list (fuel-bounded). -/
def skipAdvance (skip : List ℕ) : ℕ → ℕ → ℕ
  | 0, k => k
  | f + 1, k => if k ∈ skip then skipAdvance skip f (k + 1) else k

/-- The outer loop of `CanvasScene::searchAndSeparate`, on affected
list `L` with `li = Nodes.indexOf(Nodes.last())`: while `i < li`, run
the traversal from `L[i]` giving the component `comp`; collect into the
skip list every index `j` with `i < j ≤ li` whose node was reached; if
the skip count differs from the number of remaining affected nodes
(`L.length - i - 1`), move the component into a new container; then
advance `i` past the skip list.  Returns the state and the
`graphAdded` flag (whether `graphSeparated` is emitted). -/
def sasLoop (L : List ℕ) (li : ℕ) : ℕ → ℕ → Bool → Scene → Scene × Bool
  | 0, _, added, sc => (sc, added)
  | fuel + 1, i, added, sc =>
    if i < li then
      let comp := closure (allEdges sc) (L.getD i 0)
      let skip := (List.range (li + 1)).filter
        (fun j => decide (i < j) && decide (L.getD j 0 ∈ comp))
      let didSplit := skip.length ≠ L.length - i - 1
      let sc' := if didSplit then moveComp sc comp else sc
      sasLoop L li fuel (skipAdvance skip L.length (i + 1)) (added || didSplit) sc'
    else (sc, added)

/-- `CanvasScene::searchAndSeparate(Nodes)`. -/
def searchAndSeparate (sc : Scene) (L : List ℕ) : Scene × Bool :=
  sasLoop L (L.indexOf (L.getLastD 0)) L.length 0 false sc

/-- One step of building `adjacentNodes` in the node-deletion handler
(`mousePressEvent`, deletion mode), iterating the doomed node `x`'s
`edgeList`: `if (!adjacentNodes.contains(dest) && dest != node)` append
the destination, `else if` the same for the source. -/
def adjacentStep (x : ℕ) (acc : List ℕ) (e : Edge) : List ℕ :=
  if e.dst ∉ acc ∧ e.dst ≠ x then acc ++ [e.dst]
  else if e.src ∉ acc ∧ e.src ≠ x then acc ++ [e.src]
  else acc

/-- The `adjacentNodes` list gathered while deleting node `x`'s
incident edges. -/
def adjacentNodes (sc : Scene) (x : ℕ) : List ℕ :=
  ((allEdges sc).filter (fun e => decide (incident x e))).foldl (adjacentStep x) []

/-- The container of node `n`: the index in `canvasGraphList` of the
graph having `n` as a child (`findRootParent()` of the node). -/
def findRootParent (sc : Scene) (n : ℕ) : Option ℕ :=
  sc.graphs.findIdx? (fun g => decide (n ∈ g.nodes))

/-- Node deletion (`mousePressEvent`, deletion mode, `Node` case):
collect `adjacentNodes`; delete every edge incident to the node; if
more than one distinct neighbour remains, run `searchAndSeparate`;
delete the node; finally delete its (former) container if that
container has no children left. -/
def deleteNode (sc : Scene) (x : ℕ) : Scene :=
  if (findRootParent sc x).isSome then
    let adj := adjacentNodes sc x
    let sc1 : Scene :=
      ⟨sc.graphs.map (fun g =>
        { g with edges := g.edges.filter (fun e => !decide (incident x e)) })⟩
    let sc2 := if 1 < adj.length then (searchAndSeparate sc1 adj).1 else sc1
    match findRootParent sc2 x with
    | some pIdx =>
      let g := sc2.graphs.getD pIdx default
      let g' : Graph := ⟨g.nodes.erase x, g.edges⟩
      if g'.nodes = [] ∧ g'.edges = [] then ⟨sc2.graphs.eraseIdx pIdx⟩
      else ⟨sc2.graphs.set pIdx g'⟩
    | none => sc2
  else sc

/-- Edge deletion (`mousePressEvent`, deletion mode, `Edge` case), of
the `ei`-th edge child of the `gi`-th container: remove the edge, then
run `searchAndSeparate` on `[dest, source]` (destination appended
first).  Containers are not removed on this path. -/
def deleteEdge (sc : Scene) (gi ei : ℕ) : Scene :=
  if gi < sc.graphs.length ∧ ei < (sc.graphs.getD gi default).edges.length then
    let g := sc.graphs.getD gi default
    let e := g.edges.getD ei default
    let sc1 : Scene := ⟨sc.graphs.set gi ⟨g.nodes, g.edges.eraseIdx ei⟩⟩
    (searchAndSeparate sc1 [e.dst, e.src]).1
  else sc

/-- Re-wiring one edge of the discarded anchor `n2`'s `edgeList` onto
the kept anchor `n1`: `if (edge->sourceNode() == n2)
edge->setSourceNode(n1); else edge->setDestNode(n1);` (the guard on
incidence restricts the update to the edges of `n2`'s `edgeList`). -/
def rewireEdge (n2 n1 : ℕ) (e : Edge) : Edge :=
  if incident n2 e then
    if e.src = n2 then { e with src := n1 } else { e with dst := n1 }
  else e

/-- The duplicate test of the four-node join: an edge of `n1a`'s
`edgeList` that directly connects `n1a` and `n1b`. -/
def connects (n1a n1b : ℕ) (e : Edge) : Prop :=
  incident n1a e ∧ (e.src = n1b ∨ e.dst = n1b)

instance (n1a n1b : ℕ) (e : Edge) : Decidable (connects n1a n1b e) := by
  unfold connects; infer_instance

/-- The duplicate-removal scan of the four-node join: walk the edges,
remember the first edge connecting the kept anchors (`existingEdge`),
delete the second such edge and stop (`break`). -/
def removeSecond (p : Edge → Bool) : List Edge → Bool → List Edge
  | [], _ => []
  | e :: es, seen =>
    if p e then
      if seen then es else e :: removeSecond p es true
    else e :: removeSecond p es seen

/-- Drop the list entries at positions `i1` and `i2`
(`canvasGraphList.removeOne(root1); canvasGraphList.removeOne(root2)`). -/
def removeTwo (l : List Graph) (i1 i2 : ℕ) : List Graph :=
  (l.enum.filter (fun p => !decide (p.1 = i1) && !decide (p.1 = i2))).map Prod.snd

/-- The two-node join (`keyReleaseEvent`, key `j`, two selected nodes),
structural content.  Guard: `connectNode1a->parentItem() !=
connectNode2a->parentItem()`.  Then: re-wire every edge of `n2`'s
`edgeList` onto `n1`; re-parent all children of both roots into a new
container appended to `canvasGraphList`; destroy `n2` and both old
roots.  (Translation animation, numeric relabelling and
`centerGraph()` touch only geometric state.)  The boolean reports
whether `graphJoined` is emitted. -/
def joinTwo (sc : Scene) (n1 n2 : ℕ) : Scene × Bool :=
  match findRootParent sc n1, findRootParent sc n2 with
  | some i1, some i2 =>
    if i1 ≠ i2 then
      let rewired := sc.graphs.map (fun g =>
        { g with edges := g.edges.map (rewireEdge n2 n1) })
      let root1 := rewired.getD i1 default
      let root2 := rewired.getD i2 default
      let newRoot : Graph :=
        ⟨(root1.nodes ++ root2.nodes).erase n2, root1.edges ++ root2.edges⟩
      (⟨removeTwo rewired i1 i2 ++ [newRoot]⟩, true)
    else (sc, false)
  | _, _ => (sc, false)

/-- The edge re-wiring pass of the four-node join: every edge of
`n2a`'s `edgeList` is re-wired onto `n1a`, then every edge of `n2b`'s
`edgeList` onto `n1b`. -/
def rewireFour (sc : Scene) (n1a n1b n2a n2b : ℕ) : List Graph :=
  sc.graphs.map (fun g =>
    { g with edges := (g.edges.map (rewireEdge n2a n1a)).map (rewireEdge n2b n1b) })

/-- The four-node join (`keyReleaseEvent`, key `j`, four selected
nodes), structural content.  Guard: the four cross-pair
`parentItem()` inequalities (the only precondition the handler
re-verifies).  Then: re-wire `n2a`'s edges onto `n1a` and `n2b`'s onto
`n1b` (`rewireFour`); remove the second edge found connecting `n1a`
and `n1b`, if any (`removeSecond`); re-parent all children of `n1a`'s
and `n2a`'s roots into a new container; destroy `n2a`, `n2b` and both
old roots.  (Rotation/translation animation, relabelling and
`centerGraph()` are geometric.) -/
def joinFour (sc : Scene) (n1a n1b n2a n2b : ℕ) : Scene × Bool :=
  match findRootParent sc n1a, findRootParent sc n1b,
        findRootParent sc n2a, findRootParent sc n2b with
  | some i1a, some i1b, some i2a, some i2b =>
    if i1a ≠ i2a ∧ i1a ≠ i2b ∧ i1b ≠ i2a ∧ i1b ≠ i2b then
      let rewired := rewireFour sc n1a n1b n2a n2b
      let root1 := rewired.getD i1a default
      let root2 := rewired.getD i2a default
      let newRoot : Graph :=
        ⟨((root1.nodes ++ root2.nodes).erase n2a).erase n2b,
         removeSecond (fun e => decide (connects n1a n1b e))
           (root1.edges ++ root2.edges) false⟩
      (⟨removeTwo rewired i1a i2a ++ [newRoot]⟩, true)
    else (sc, false)
  | _, _, _, _ => (sc, false)

/-- The selection constraints `mousePressEvent` (join mode) enforces
before a four-node join can be requested: the second node of each pair
is accepted only if it differs from the first and shares its
`findRootParent()`. -/
def joinSelectionOK (sc : Scene) (n1a n1b n2a n2b : ℕ) : Prop :=
  n1a ≠ n1b ∧ findRootParent sc n1a = findRootParent sc n1b ∧
  n2a ≠ n2b ∧ findRootParent sc n2a = findRootParent sc n2b

instance (sc : Scene) (a b c d : ℕ) : Decidable (joinSelectionOK sc a b c d) := by
  unfold joinSelectionOK; infer_instance

/-- The structural mutations of the engine, as the user interface can
trigger them. -/
inductive Op where
  | delNode (x : ℕ)
  | delEdge (gi ei : ℕ)
  | joinTwoNodes (n1 n2 : ℕ)
  | joinFourNodes (n1a n1b n2a n2b : ℕ)
  | rotate (gi : ℕ) (amount : ℚ) (relative : Bool)

/-- Apply one operation.  A four-node join fires only for selections
the join mode can actually produce (`joinSelectionOK`); a rotation
(`Graph::setRotation`) changes no child sets — see the `Geom` layer. -/
def applyOp (sc : Scene) : Op → Scene
  | Op.delNode x => deleteNode sc x
  | Op.delEdge gi ei => deleteEdge sc gi ei
  | Op.joinTwoNodes n1 n2 => (joinTwo sc n1 n2).1
  | Op.joinFourNodes a b c d =>
    if joinSelectionOK sc a b c d then (joinFour sc a b c d).1 else sc
  | Op.rotate _ _ _ => sc

/-- Apply a sequence of operations, oldest first. -/
def applyOps (sc : Scene) (ops : List Op) : Scene :=
  ops.foldl applyOp sc

end Canvas

namespace Geom

theorem rgStep_shift (c : ℚ × ℚ) (a : RGAcc) (n : Node) :
    rgStep (shiftAcc c a) (shiftNode c n) = shiftAcc c (rgStep a n) := by
  rcases a with ⟨f, mnx, mxx, mny, mxy⟩
  rcases n with ⟨⟨px, py⟩, d, r⟩
  cases f <;>
    (dsimp only [rgStep, shiftAcc, shiftNode]
     split_ifs <;> first | rfl | (exfalso; linarith))

theorem rgFold_shift (c : ℚ × ℚ) (ns : List Node) :
    ∀ a : RGAcc, List.foldl rgStep (shiftAcc c a) (ns.map (shiftNode c)) =
      shiftAcc c (List.foldl rgStep a ns) := by
  induction ns with
  | nil => intro a; rfl
  | cons n ns ih =>
    intro a
    simp only [List.map_cons, List.foldl_cons, rgStep_shift, ih]

theorem rgFold_map_shift (c : ℚ × ℚ) (n : Node) (rest : List Node) :
    rgFold ((n :: rest).map (shiftNode c)) = shiftAcc c (rgFold (n :: rest)) := by
  have h0 : rgStep ⟨true, 0, 0, 0, 0⟩ (shiftNode c n) =
      shiftAcc c (rgStep ⟨true, 0, 0, 0, 0⟩ n) := by
    rcases n with ⟨⟨px, py⟩, d, r⟩; rfl
  simp only [rgFold, List.map_cons, List.foldl_cons, h0, rgFold_shift]

theorem rg_center_after (g : Graph) :
    boundingBoxRGcenter (centerGraph g) = (0, 0) := by
  rcases hg : g.nodes with _ | ⟨n, rest⟩
  · simp [centerGraph, boundingBoxRGcenter, hg, rgFold]
  · have hfun : (fun m : Node =>
        { m with pos := (m.pos.1 - (boundingBoxRGcenter g).1,
                         m.pos.2 - (boundingBoxRGcenter g).2) }) =
        shiftNode (boundingBoxRGcenter g) := rfl
    have hnodes : (centerGraph g).nodes =
        ((n :: rest).map (shiftNode (boundingBoxRGcenter g))) := by
      simp [centerGraph, hg, hfun]
    have hcen : boundingBoxRGcenter g =
        (((rgFold (n :: rest)).RGmaxx + (rgFold (n :: rest)).RGminx) / 2,
         ((rgFold (n :: rest)).RGmaxy + (rgFold (n :: rest)).RGminy) / 2) := by
      simp [boundingBoxRGcenter, hg]
    simp only [boundingBoxRGcenter, hnodes, rgFold_map_shift, shiftAcc]
    rw [hg]
    simp only [Prod.mk.injEq]
    constructor <;> ring

theorem centerGraph_of_center_zero (g : Graph)
    (h : boundingBoxRGcenter g = (0, 0)) : centerGraph g = g := by
  rcases g with ⟨p, rot, ns, es⟩
  simp only [centerGraph, h, sub_zero, add_zero, Prod.mk.eta]
  have : (fun n : Node => { n with pos := (n.pos.1, n.pos.2) }) = fun n => n := rfl
  simp [this]

/-- C5: `centerGraph()` is idempotent: a second call recomputes a zero
centroid and changes nothing, so the whole container state — and hence
every scene-space position — after two calls equals the state after
one. -/
theorem C5_centerGraph_idempotent (g : Graph) :
    centerGraph (centerGraph g) = centerGraph g :=
  centerGraph_of_center_zero (centerGraph g) (rg_center_after g)

/-- C3 (counterexample): the claim "after `centerGraph()` the node
children's local positions sum to the zero vector" fails on a container
with nodes at local positions (0,0), (0,0), (10,0): the recentred
positions are (-5,0), (-5,0), (5,0), summing to (-5,0) ≠ (0,0) — the
code recentres on the bounding-box midpoint, not the arithmetic mean. -/
theorem C3_centroid_counterexample :
    (⟨(0, 0), 0, [⟨(0, 0), 1, 0⟩, ⟨(0, 0), 1, 0⟩, ⟨(10, 0), 1, 0⟩], []⟩ :
      Graph).nodes ≠ [] ∧
    sumPos (centerGraph
      (⟨(0, 0), 0, [⟨(0, 0), 1, 0⟩, ⟨(0, 0), 1, 0⟩, ⟨(10, 0), 1, 0⟩], []⟩ :
        Graph)).nodes ≠ (0, 0) := by
  constructor
  · simp
  · norm_num [sumPos, centerGraph, boundingBoxRGcenter, rgFold, rgStep]

/-- C3 (amended): after any call to `centerGraph()` on a Container with
at least one Node child, the Container's local origin coincides with
the midpoint of the bounding box of its Node children's local
positions (the `RGcenter` of `boundingBox`), i.e. immediately after
the call the recomputed `RGcenter` is the zero vector.  (The code uses
the bounding-box midpoint, not the arithmetic mean.) -/
theorem C3_center_amended (g : Graph) (h : g.nodes ≠ []) :
    boundingBoxRGcenter (centerGraph g) = (0, 0) :=
  rg_center_after g

theorem C3_center_amended_witness :
    (⟨(0, 0), 0, [⟨(4, 2), 1, 0⟩, ⟨(10, 0), 1, 0⟩], []⟩ : Graph).nodes ≠ [] ∧
    boundingBoxRGcenter (centerGraph
      (⟨(0, 0), 0, [⟨(4, 2), 1, 0⟩, ⟨(10, 0), 1, 0⟩], []⟩ : Graph)) = (0, 0) :=
  ⟨by simp, C3_center_amended _ (by simp)⟩

/-- C6: `Graph::setRotation(amount, relative)` sets the container's
rotation to its previous rotation plus `amount` when `relative`, else
to `amount`, and every child Node and child Edge then carries rotation
equal to the negation of that new rotation. -/
theorem C6_setRotation_post (g : Graph) (amount : ℚ) (relative : Bool) :
    (setRotation g amount relative).rotation =
      (if relative then g.rotation + amount else amount) ∧
    (∀ n ∈ (setRotation g amount relative).nodes,
      n.rotation = -(setRotation g amount relative).rotation) ∧
    (∀ e ∈ (setRotation g amount relative).edges,
      e.rotation = -(setRotation g amount relative).rotation) := by
  refine ⟨rfl, ?_, ?_⟩ <;> intro x hx <;>
    simp only [setRotation, List.mem_map] at hx <;>
    obtain ⟨y, _, rfl⟩ := hx <;> rfl

theorem C6_setRotation_post_witness :
    (setRotation (⟨(0, 0), 45, [⟨(1, 2), 1, 0⟩], [⟨0⟩]⟩ : Graph) 30 true).rotation =
      (if true then (45 : ℚ) + 30 else 30) ∧
    (⟨(1, 2), 1, -75⟩ : Node).rotation =
      -(setRotation (⟨(0, 0), 45, [⟨(1, 2), 1, 0⟩], [⟨0⟩]⟩ : Graph) 30 true).rotation ∧
    (⟨-75⟩ : Edge).rotation =
      -(setRotation (⟨(0, 0), 45, [⟨(1, 2), 1, 0⟩], [⟨0⟩]⟩ : Graph) 30 true).rotation :=
  ⟨(C6_setRotation_post ⟨(0, 0), 45, [⟨(1, 2), 1, 0⟩], [⟨0⟩]⟩ 30 true).1,
   (C6_setRotation_post ⟨(0, 0), 45, [⟨(1, 2), 1, 0⟩], [⟨0⟩]⟩ 30 true).2.1 _
     (by norm_num [setRotation]),
   (C6_setRotation_post ⟨(0, 0), 45, [⟨(1, 2), 1, 0⟩], [⟨0⟩]⟩ 30 true).2.2 _
     (by norm_num [setRotation])⟩

theorem scenePos_rot_zero (g : Graph) (h : g.rotation = 0) (p : ℚ × ℚ) :
    scenePos g p = ((g.pos.1 : ℝ) + (p.1 : ℝ), (g.pos.2 : ℝ) + (p.2 : ℝ)) := by
  simp [scenePos, radOfDeg, h]

/-- C4 (counterexample): on a container rotated by 90° holding one node
at local position (2,0), `centerGraph()` moves the node's on-screen
position from (0,2) to (2,0): the compensating translation of the
container is applied unrotated, so it does not cancel the node shift
under a nonzero rotation. -/
theorem C4_scene_fixed_counterexample :
    nodeScenePositions (centerGraph
      (⟨(0, 0), 90, [⟨(2, 0), 1, 0⟩], []⟩ : Graph)) ≠
    nodeScenePositions (⟨(0, 0), 90, [⟨(2, 0), 1, 0⟩], []⟩ : Graph) := by
  have hrad : radOfDeg 90 = Real.pi / 2 := by
    unfold radOfDeg
    push_cast
    ring
  have hC : centerGraph (⟨(0, 0), 90, [⟨(2, 0), 1, 0⟩], []⟩ : Graph) =
      (⟨(2, 0), 90, [⟨(0, 0), 1, 0⟩], []⟩ : Graph) := by
    norm_num [centerGraph, boundingBoxRGcenter, rgFold, rgStep]
  rw [hC]
  simp only [nodeScenePositions, scenePos, List.map_cons, List.map_nil, hrad,
    Real.cos_pi_div_two, Real.sin_pi_div_two]
  intro hEq
  have h1 := congrArg (fun l => (l.headD (0, 0)).1) hEq
  norm_num at h1

/-- C4 (amended): for a Container whose rotation is zero, a call to
`centerGraph()` leaves the scene-space position of every Node child
unchanged.  (With a nonzero rotation the container translation is
applied unrotated and the scene positions shift; all call sites invoke
`centerGraph()` on a freshly created container with rotation 0.) -/
theorem C4_scene_fixed_amended (g : Graph) (h : g.rotation = 0) :
    nodeScenePositions (centerGraph g) = nodeScenePositions g := by
  have hrotC : (centerGraph g).rotation = g.rotation := rfl
  have hposC : (centerGraph g).pos =
      (g.pos.1 + (boundingBoxRGcenter g).1, g.pos.2 + (boundingBoxRGcenter g).2) := rfl
  unfold nodeScenePositions
  have hnodes : (centerGraph g).nodes = g.nodes.map
      (fun n => { n with pos := (n.pos.1 - (boundingBoxRGcenter g).1,
                                 n.pos.2 - (boundingBoxRGcenter g).2) }) := rfl
  rw [hnodes, List.map_map]
  refine List.map_congr_left ?_
  intro n _
  simp only [Function.comp_apply]
  rw [scenePos_rot_zero _ (by rw [hrotC, h]), scenePos_rot_zero _ h, hposC]
  push_cast
  simp only [Prod.mk.injEq]
  constructor <;> ring

theorem C4_scene_fixed_amended_witness :
    (⟨(3, 1), 0, [⟨(2, 5), 1, 0⟩, ⟨(4, 1), 1, 0⟩], []⟩ : Graph).rotation = 0 ∧
    nodeScenePositions (centerGraph
      (⟨(3, 1), 0, [⟨(2, 5), 1, 0⟩, ⟨(4, 1), 1, 0⟩], []⟩ : Graph)) =
    nodeScenePositions (⟨(3, 1), 0, [⟨(2, 5), 1, 0⟩, ⟨(4, 1), 1, 0⟩], []⟩ : Graph) :=
  ⟨rfl, C4_scene_fixed_amended _ rfl⟩

/-- C10: failing input for the bounding box with radii.  Container at
(0,0) with rotation 0 holding two nodes, both at scene position (0,0),
with radii 1 and 2 in child order (diameters 2 and 4, DPI 1).  The
claimed x-range minimum is min(0-1, 0-2) = -2, but `boundingBox`
returns minx = -1: the `else if` in the accumulation skips the minimum
update whenever the same node has just extended the maximum, so the
returned rectangle fails to contain the second node.  (On inputs where
each node extends only one side — such as the spec's (0,0) r=1,
(10,0) r=2 example — the two agree.) -/
theorem C10_boundingBox_else_if_bug :
    (boundingBoxScene 1 true
      (⟨(0, 0), 0, [⟨(0, 0), 2, 0⟩, ⟨(0, 0), 4, 0⟩], []⟩ : Graph)).minx = -1 ∧
    specBBminX 1 (⟨(0, 0), 0, [⟨(0, 0), 2, 0⟩, ⟨(0, 0), 4, 0⟩], []⟩ : Graph) = -2 ∧
    ((-1 : ℝ) ≠ -2) := by
  refine ⟨?_, ?_, by norm_num⟩
  · norm_num [boundingBoxScene, bbStep, scenePos, radOfDeg]
  · norm_num [specBBminX, scenePos, radOfDeg, min_def]

end Geom

namespace Canvas

/-- C2 (counterexample): on the container {A,B,C,D} with edges A–B and
C–D (ids 0..3), `searchAndSeparate` with affected list {A, C} moves
only A's component into a new container; the original container is
neither destroyed nor reduced to empty — it retains {C, D}. -/
theorem C2_split_counterexample :
    ((searchAndSeparate ⟨[⟨[0, 1, 2, 3], [⟨0, 1⟩, ⟨2, 3⟩]⟩]⟩ [0, 2]).1.graphs.getD 0
        default).nodes = [2, 3] ∧
    ((searchAndSeparate ⟨[⟨[0, 1, 2, 3], [⟨0, 1⟩, ⟨2, 3⟩]⟩]⟩ [0, 2]).1.graphs.getD 0
        default).nodes ≠ [] := by
  decide

/-- C2 (amended): invoking `searchAndSeparate` with affected list
{A, C} on a container holding {A, B, C, D} with edges {A–B, C–D}
(ids 0..3) yields exactly two containers: the original container (still
first in `canvasGraphList`) retains {C, D} with edge C–D, and a newly
created container holds {A, B} with edge A–B; `graphSeparated` is
emitted.  The original container is not destroyed or emptied. -/
theorem C2_split_amended :
    searchAndSeparate ⟨[⟨[0, 1, 2, 3], [⟨0, 1⟩, ⟨2, 3⟩]⟩]⟩ [0, 2] =
      (⟨[⟨[2, 3], [⟨2, 3⟩]⟩, ⟨[0, 1], [⟨0, 1⟩]⟩]⟩, true) := by
  decide

/-- C7: joining container A = {x1, x2} with edge x1–x2 and container
B = {y1, y2} with edge y1–y2 (ids x1=0, x2=1, y1=2, y2=3) at anchors
n1 = x2, n2 = y1 yields exactly one container with nodes {x1, x2, y2},
edges exactly {x1–x2, x2–y2}, and edge count 2 (not 3); containers A
and B are destroyed and `graphJoined` is emitted. -/
theorem C7_two_node_join_reconstitution :
    joinTwo ⟨[⟨[0, 1], [⟨0, 1⟩]⟩, ⟨[2, 3], [⟨2, 3⟩]⟩]⟩ 1 2 =
      (⟨[⟨[0, 1, 3], [⟨0, 1⟩, ⟨1, 3⟩]⟩]⟩, true) := by
  decide

/-- C9 (counterexample): a four-node join request violating the
"anchors distinct from each other" precondition (n1a = n1b = 0, in a
container distinct from the one holding n2a = 2, n2b = 3) is NOT a
no-op: the handler re-verifies only the four cross-pair parent
inequalities, so the join proceeds, mutates the canvas and emits
`graphJoined`. -/
theorem C9_join_guard_counterexample :
    (joinFour ⟨[⟨[0, 1], [⟨0, 1⟩]⟩, ⟨[2, 3], [⟨2, 3⟩]⟩]⟩ 0 0 2 3).1 ≠
      ⟨[⟨[0, 1], [⟨0, 1⟩]⟩, ⟨[2, 3], [⟨2, 3⟩]⟩]⟩ ∧
    (joinFour ⟨[⟨[0, 1], [⟨0, 1⟩]⟩, ⟨[2, 3], [⟨2, 3⟩]⟩]⟩ 0 0 2 3).2 = true := by
  decide

/-- C9 (amended): the join handler re-verifies the container
preconditions itself: a two-node join whose anchors do not lie in two
distinct live containers, and a four-node join for which any of the
four cross-pair container checks fails (in particular whenever an
anchor is missing or the two pairs share a container), is a silent
no-op — the state is returned unchanged and `graphJoined` is not
emitted.  For the two-node shape this subsumes anchor distinctness
(`joinTwo sc n n` is always a no-op); for the four-node shape,
distinctness of the anchors within a pair is ensured by the selection
code in `mousePressEvent`, not re-verified by the handler. -/
theorem C9_join_guard_amended :
    (∀ (sc : Scene) (n1 n2 : ℕ),
      findRootParent sc n1 = none ∨ findRootParent sc n2 = none ∨
        findRootParent sc n1 = findRootParent sc n2 →
      joinTwo sc n1 n2 = (sc, false)) ∧
    (∀ (sc : Scene) (n : ℕ), joinTwo sc n n = (sc, false)) ∧
    (∀ (sc : Scene) (n1a n1b n2a n2b : ℕ),
      findRootParent sc n1a = none ∨ findRootParent sc n1b = none ∨
        findRootParent sc n2a = none ∨ findRootParent sc n2b = none ∨
        findRootParent sc n1a = findRootParent sc n2a ∨
        findRootParent sc n1a = findRootParent sc n2b ∨
        findRootParent sc n1b = findRootParent sc n2a ∨
        findRootParent sc n1b = findRootParent sc n2b →
      joinFour sc n1a n1b n2a n2b = (sc, false)) := by
  refine ⟨?_, ?_, ?_⟩
  · intro sc n1 n2 h
    unfold joinTwo
    rcases hf1 : findRootParent sc n1 with _ | i1 <;>
      rcases hf2 : findRootParent sc n2 with _ | i2 <;> simp_all
  · intro sc n
    unfold joinTwo
    rcases hf : findRootParent sc n with _ | i <;> simp [hf]
  · intro sc n1a n1b n2a n2b h
    unfold joinFour
    rcases hf1 : findRootParent sc n1a with _ | i1a <;>
      rcases hf2 : findRootParent sc n1b with _ | i1b <;>
      rcases hf3 : findRootParent sc n2a with _ | i2a <;>
      rcases hf4 : findRootParent sc n2b with _ | i2b <;> simp_all <;> tauto

theorem C9_join_guard_amended_witness :
    joinTwo ⟨[⟨[0, 1], [⟨0, 1⟩]⟩]⟩ 0 1 = (⟨[⟨[0, 1], [⟨0, 1⟩]⟩]⟩, false) ∧
    joinTwo ⟨[⟨[0, 1], [⟨0, 1⟩]⟩]⟩ 1 1 = (⟨[⟨[0, 1], [⟨0, 1⟩]⟩]⟩, false) ∧
    joinFour ⟨[⟨[0, 1, 2, 3], [⟨0, 1⟩, ⟨2, 3⟩]⟩]⟩ 0 1 2 3 =
      (⟨[⟨[0, 1, 2, 3], [⟨0, 1⟩, ⟨2, 3⟩]⟩]⟩, false) :=
  ⟨C9_join_guard_amended.1 _ 0 1 (by decide),
   C9_join_guard_amended.2.1 _ 1,
   C9_join_guard_amended.2.2 _ 0 1 2 3 (by decide)⟩

theorem removeSecond_count_one (p : Edge → Bool) :
    ∀ l : List Edge, l.countP p = 1 →
      (removeSecond p l true).countP p = 0 ∧
      (removeSecond p l true).length + 1 = l.length := by
  intro l
  induction l with
  | nil => intro h; simp at h
  | cons e es ih =>
    intro h
    rw [List.countP_cons] at h
    by_cases hp : p e
    · have h0 : es.countP p = 0 := by rw [if_pos hp] at h; omega
      simp [removeSecond, hp, h0]
    · have h1 : es.countP p = 1 := by rw [if_neg hp] at h; omega
      have := ih h1
      simp [removeSecond, hp, List.countP_cons, this.1, this.2]

theorem removeSecond_count_two (p : Edge → Bool) :
    ∀ l : List Edge, l.countP p = 2 →
      (removeSecond p l false).countP p = 1 ∧
      (removeSecond p l false).length + 1 = l.length := by
  intro l
  induction l with
  | nil => intro h; simp at h
  | cons e es ih =>
    intro h
    rw [List.countP_cons] at h
    by_cases hp : p e
    · have h1 : es.countP p = 1 := by rw [if_pos hp] at h; omega
      have := removeSecond_count_one p es h1
      simp [removeSecond, hp, List.countP_cons, this.1, this.2]
    · have h2 : es.countP p = 2 := by rw [if_neg hp] at h; omega
      have := ih h2
      simp [removeSecond, hp, List.countP_cons, this.1, this.2]

theorem getD_map_of_lt (f : Graph → Graph) (l : List Graph) (i : ℕ) (h : i < l.length) :
    (l.map f).getD i default = f (l.getD i default) := by
  rw [List.getD_eq_getElem?_getD, List.getD_eq_getElem?_getD, List.getElem?_map,
    List.getElem?_eq_getElem h]
  rfl

/-- C8: in a four-node join that passes the cross-container guard, if
after re-wiring the two roots' edge lists hold exactly two edges
directly connecting the kept anchors `n1a` and `n1b`, then exactly one
of the two is deleted: the joined container holds exactly one edge
connecting `n1a` and `n1b`, and its edge count is the pre-join total
(the two roots' edge counts) minus one. -/
theorem C8_duplicate_edge_removal (sc : Scene) (n1a n1b n2a n2b i1a i1b i2a i2b : ℕ)
    (h1a : findRootParent sc n1a = some i1a) (h1b : findRootParent sc n1b = some i1b)
    (h2a : findRootParent sc n2a = some i2a) (h2b : findRootParent sc n2b = some i2b)
    (hg : i1a ≠ i2a ∧ i1a ≠ i2b ∧ i1b ≠ i2a ∧ i1b ≠ i2b)
    (hcount : (((rewireFour sc n1a n1b n2a n2b).getD i1a default).edges ++
                ((rewireFour sc n1a n1b n2a n2b).getD i2a default).edges).countP
        (fun e => decide (connects n1a n1b e)) = 2) :
    (((joinFour sc n1a n1b n2a n2b).1.graphs.getLastD default).edges).countP
        (fun e => decide (connects n1a n1b e)) = 1 ∧
    ((joinFour sc n1a n1b n2a n2b).1.graphs.getLastD default).edges.length + 1 =
      (sc.graphs.getD i1a default).edges.length +
      (sc.graphs.getD i2a default).edges.length := by
  have hlt1 : i1a < sc.graphs.length :=
    (List.findIdx?_eq_some_iff_findIdx_eq.mp (by simpa [findRootParent] using h1a)).1
  have hlt2 : i2a < sc.graphs.length :=
    (List.findIdx?_eq_some_iff_findIdx_eq.mp (by simpa [findRootParent] using h2a)).1
  have hres : (joinFour sc n1a n1b n2a n2b).1.graphs.getLastD default =
      ⟨(((rewireFour sc n1a n1b n2a n2b).getD i1a default).nodes ++
         ((rewireFour sc n1a n1b n2a n2b).getD i2a default).nodes).erase n2a |>.erase n2b,
       removeSecond (fun e => decide (connects n1a n1b e))
         (((rewireFour sc n1a n1b n2a n2b).getD i1a default).edges ++
          ((rewireFour sc n1a n1b n2a n2b).getD i2a default).edges) false⟩ := by
    simp only [joinFour, h1a, h1b, h2a, h2b]
    rw [if_pos hg]
    simp [List.getLastD_concat]
  have hrs := removeSecond_count_two (fun e => decide (connects n1a n1b e)) _ hcount
  have hlen1 : ((rewireFour sc n1a n1b n2a n2b).getD i1a default).edges.length =
      (sc.graphs.getD i1a default).edges.length := by
    unfold rewireFour
    rw [getD_map_of_lt _ _ _ hlt1]
    simp
  have hlen2 : ((rewireFour sc n1a n1b n2a n2b).getD i2a default).edges.length =
      (sc.graphs.getD i2a default).edges.length := by
    unfold rewireFour
    rw [getD_map_of_lt _ _ _ hlt2]
    simp
  rw [hres]
  refine ⟨hrs.1, ?_⟩
  have := hrs.2
  rw [List.length_append, hlen1, hlen2] at this
  exact this

theorem C8_duplicate_edge_removal_witness :
    findRootParent ⟨[⟨[0, 1], [⟨0, 1⟩]⟩, ⟨[2, 3], [⟨2, 3⟩]⟩]⟩ 0 = some 0 ∧
    (((joinFour ⟨[⟨[0, 1], [⟨0, 1⟩]⟩, ⟨[2, 3], [⟨2, 3⟩]⟩]⟩ 0 1 2 3).1.graphs.getLastD
        default).edges).countP (fun e => decide (connects 0 1 e)) = 1 ∧
    ((joinFour ⟨[⟨[0, 1], [⟨0, 1⟩]⟩, ⟨[2, 3], [⟨2, 3⟩]⟩]⟩ 0 1 2 3).1.graphs.getLastD
        default).edges.length + 1 = 1 + 1 :=
  ⟨by decide,
   (C8_duplicate_edge_removal ⟨[⟨[0, 1], [⟨0, 1⟩]⟩, ⟨[2, 3], [⟨2, 3⟩]⟩]⟩ 0 1 2 3 0 0 1 1
     (by decide) (by decide) (by decide) (by decide) (by decide) (by decide)).1,
   (C8_duplicate_edge_removal ⟨[⟨[0, 1], [⟨0, 1⟩]⟩, ⟨[2, 3], [⟨2, 3⟩]⟩]⟩ 0 1 2 3 0 0 1 1
     (by decide) (by decide) (by decide) (by decide) (by decide) (by decide)).2⟩

theorem adjE_symm (es : List Edge) : Symmetric (adjE es) := by
  intro x y ⟨e, he, h⟩
  refine ⟨e, he, ?_⟩
  rcases h with ⟨h1, h2⟩ | ⟨h1, h2⟩
  · exact Or.inr ⟨h1, h2⟩
  · exact Or.inl ⟨h1, h2⟩

theorem reaches_symm (es : List Edge) {a b : ℕ} (h : Reaches es a b) :
    Reaches es b a :=
  (Relation.ReflTransGen.symmetric (adjE_symm es)) h

theorem reaches_trans (es : List Edge) {a b c : ℕ} (h1 : Reaches es a b)
    (h2 : Reaches es b c) : Reaches es a c :=
  Relation.ReflTransGen.trans h1 h2

theorem adjE_mono {es es' : List Edge} (hsub : ∀ e ∈ es, e ∈ es') {x y : ℕ}
    (h : adjE es x y) : adjE es' x y := by
  obtain ⟨e, he, hx⟩ := h
  exact ⟨e, hsub e he, hx⟩

theorem reaches_mono {es es' : List Edge} (hsub : ∀ e ∈ es, e ∈ es') {a b : ℕ}
    (h : Reaches es a b) : Reaches es' a b :=
  Relation.ReflTransGen.mono (fun _ _ => adjE_mono hsub) h

theorem mem_expandOnce {es : List Edge} {s : List ℕ} {x : ℕ} :
    x ∈ expandOnce es s ↔
      x ∈ s ∨ ∃ e ∈ es, (e.src ∈ s ∨ e.dst ∈ s) ∧ (x = e.src ∨ x = e.dst) := by
  constructor
  · intro hx
    rcases List.mem_append.mp hx with h | h
    · exact Or.inl h
    · obtain ⟨e, hef, hxe⟩ := List.mem_flatMap.mp h
      obtain ⟨hees, hcond⟩ := List.mem_filter.mp hef
      refine Or.inr ⟨e, hees, ?_, ?_⟩
      · simpa using hcond
      · simpa using hxe
  · rintro (hx | ⟨e, he, hend, hx⟩)
    · exact List.mem_append.mpr (Or.inl hx)
    · refine List.mem_append.mpr (Or.inr ?_)
      refine List.mem_flatMap.mpr ⟨e, List.mem_filter.mpr ⟨he, ?_⟩, ?_⟩
      · rcases hend with h | h <;> simp [h]
      · rcases hx with rfl | rfl <;> simp

theorem subset_expandOnce {es : List Edge} {s : List ℕ} {x : ℕ} (h : x ∈ s) :
    x ∈ expandOnce es s :=
  mem_expandOnce.mpr (Or.inl h)

theorem closureAux_succ (es : List Edge) (f : ℕ) (s : List ℕ) :
    closureAux es (f + 1) s = expandOnce es (closureAux es f s) := by
  induction f generalizing s with
  | zero => rfl
  | succ f ih =>
    show closureAux es (f + 1) (expandOnce es s) = _
    rw [ih (expandOnce es s)]
    rfl

theorem subset_closureAux {es : List Edge} (f : ℕ) {s : List ℕ} {x : ℕ} (h : x ∈ s) :
    x ∈ closureAux es f s := by
  induction f generalizing s with
  | zero => exact h
  | succ f ih => exact ih (subset_expandOnce h)

theorem closureAux_sound {es : List Edge} {a : ℕ} (f : ℕ) {s : List ℕ}
    (hs : ∀ x ∈ s, Reaches es a x) : ∀ x ∈ closureAux es f s, Reaches es a x := by
  induction f generalizing s with
  | zero => exact hs
  | succ f ih =>
    refine ih ?_
    intro x hx
    rcases mem_expandOnce.mp hx with h | ⟨e, he, hend, hx⟩
    · exact hs x h
    · rcases hend with hy | hy
      · rcases hx with rfl | rfl
        · exact hs _ hy
        · exact (hs _ hy).tail ⟨e, he, Or.inl ⟨rfl, rfl⟩⟩
      · rcases hx with rfl | rfl
        · exact (hs _ hy).tail ⟨e, he, Or.inr ⟨rfl, rfl⟩⟩
        · exact hs _ hy

theorem closure_sound {es : List Edge} {a b : ℕ} (h : b ∈ closure es a) :
    Reaches es a b := by
  refine closureAux_sound _ ?_ b h
  intro x hx
  rcases List.mem_singleton.mp hx with rfl
  exact Relation.ReflTransGen.refl

theorem expandOnce_congr {es : List Edge} {s t : List ℕ}
    (h : ∀ x, x ∈ s ↔ x ∈ t) : ∀ x, x ∈ expandOnce es s ↔ x ∈ expandOnce es t := by
  intro x
  rw [mem_expandOnce, mem_expandOnce]
  constructor
  · rintro (hx | ⟨e, he, hend, hx⟩)
    · exact Or.inl ((h x).mp hx)
    · exact Or.inr ⟨e, he, hend.imp (h e.src).mp (h e.dst).mp, hx⟩
  · rintro (hx | ⟨e, he, hend, hx⟩)
    · exact Or.inl ((h x).mpr hx)
    · exact Or.inr ⟨e, he, hend.imp (h e.src).mpr (h e.dst).mpr, hx⟩

theorem closureAux_bounded {es : List Edge} (f : ℕ) {s : List ℕ} :
    ∀ x ∈ closureAux es f s, x ∈ s ∨ ∃ e ∈ es, x = e.src ∨ x = e.dst := by
  induction f generalizing s with
  | zero => exact fun x hx => Or.inl hx
  | succ f ih =>
    intro x hx
    rcases @ih (expandOnce es s) x hx with h | h
    · rcases mem_expandOnce.mp h with h | ⟨e, he, _, hx⟩
      · exact Or.inl h
      · exact Or.inr ⟨e, he, hx⟩
    · exact Or.inr h

theorem closureAux_mono_succ {es : List Edge} {n : ℕ} {s : List ℕ} {x : ℕ}
    (h : x ∈ closureAux es n s) : x ∈ closureAux es (n + 1) s := by
  rw [closureAux_succ]
  exact subset_expandOnce h

theorem length_flatMap_pairs (es : List Edge) :
    (es.flatMap (fun e => [e.src, e.dst])).length = 2 * es.length := by
  induction es with
  | nil => rfl
  | cons e es ih =>
    rw [List.flatMap_cons, List.length_append, ih]
    simp only [List.length_cons, List.length_nil]
    omega

theorem stabilize_exists (es : List Edge) (a : ℕ) :
    ∃ n ≤ 2 * es.length, ∀ x, x ∈ closureAux es (n + 1) [a] → x ∈ closureAux es n [a] := by
  by_contra hcon
  push_neg at hcon
  have hcard : ∀ n, n ≤ 2 * es.length + 1 →
      n + 1 ≤ (closureAux es n [a]).toFinset.card := by
    intro n
    induction n with
    | zero => intro _; simp [closureAux]
    | succ n ih =>
      intro hn
      obtain ⟨x, hx1, hx2⟩ := hcon n (by omega)
      have hsub : (closureAux es n [a]).toFinset ⊂ (closureAux es (n + 1) [a]).toFinset := by
        constructor
        · intro y hy
          rw [List.mem_toFinset] at hy ⊢
          exact closureAux_mono_succ hy
        · intro hsub'
          exact hx2 (List.mem_toFinset.mp (hsub' (List.mem_toFinset.mpr hx1)))
      have := Finset.card_lt_card hsub
      have := ih (by omega)
      omega
  have hbound : (closureAux es (2 * es.length + 1) [a]).toFinset.card ≤
      2 * es.length + 1 := by
    have hsub : (closureAux es (2 * es.length + 1) [a]).toFinset ⊆
        (a :: es.flatMap (fun e => [e.src, e.dst])).toFinset := by
      intro y hy
      rw [List.mem_toFinset] at hy ⊢
      rcases closureAux_bounded _ y hy with h | ⟨e, he, h⟩
      · simp at h
        simp [h]
      · refine List.mem_cons_of_mem _ (List.mem_flatMap.mpr ⟨e, he, ?_⟩)
        rcases h with rfl | rfl <;> simp
    calc (closureAux es (2 * es.length + 1) [a]).toFinset.card
        ≤ (a :: es.flatMap (fun e => [e.src, e.dst])).toFinset.card :=
          Finset.card_le_card hsub
      _ ≤ (a :: es.flatMap (fun e => [e.src, e.dst])).length := List.toFinset_card_le _
      _ = 2 * es.length + 1 := by
          rw [List.length_cons, length_flatMap_pairs]
  have := hcard (2 * es.length + 1) (le_refl _)
  omega

theorem closureAux_stable_forward {es : List Edge} {a : ℕ} {n : ℕ}
    (hst : ∀ x, x ∈ closureAux es (n + 1) [a] → x ∈ closureAux es n [a]) :
    ∀ m x, x ∈ closureAux es (n + m) [a] ↔ x ∈ closureAux es n [a] := by
  intro m
  induction m with
  | zero => intro x; rfl
  | succ m ih =>
    intro x
    have hstep : closureAux es (n + m + 1) [a] = expandOnce es (closureAux es (n + m) [a]) :=
      closureAux_succ es _ _
    constructor
    · intro hx
      rw [show n + (m + 1) = n + m + 1 by omega, hstep] at hx
      have hx' : x ∈ expandOnce es (closureAux es n [a]) := (expandOnce_congr ih x).mp hx
      rw [← closureAux_succ] at hx'
      exact hst x hx'
    · intro hx
      rw [show n + (m + 1) = n + m + 1 by omega, hstep]
      exact subset_expandOnce ((ih x).mpr hx)

theorem closure_closed {es : List Edge} {a x y : ℕ} (hx : x ∈ closure es a)
    (hadj : adjE es x y) : y ∈ closure es a := by
  obtain ⟨n, hn, hst⟩ := stabilize_exists es a
  have hEq := closureAux_stable_forward hst (2 * es.length + 1 - n)
  have hrw : n + (2 * es.length + 1 - n) = 2 * es.length + 1 := by omega
  rw [hrw] at hEq
  unfold closure at hx ⊢
  have hxn : x ∈ closureAux es n [a] := (hEq x).mp hx
  have hy : y ∈ expandOnce es (closureAux es n [a]) := by
    obtain ⟨e, he, hor⟩ := hadj
    refine mem_expandOnce.mpr (Or.inr ⟨e, he, ?_, ?_⟩)
    · rcases hor with ⟨h1, _⟩ | ⟨_, h2⟩
      · exact Or.inl (h1 ▸ hxn)
      · exact Or.inr (h2 ▸ hxn)
    · rcases hor with ⟨_, h2⟩ | ⟨h1, _⟩
      · exact Or.inr h2.symm
      · exact Or.inl h1.symm
  rw [← closureAux_succ] at hy
  exact (hEq y).mpr (hst y hy)

theorem self_mem_closure (es : List Edge) (a : ℕ) : a ∈ closure es a :=
  subset_closureAux _ (List.mem_singleton.mpr rfl)

theorem closure_complete {es : List Edge} {a b : ℕ} (h : Reaches es a b) :
    b ∈ closure es a := by
  induction h with
  | refl => exact self_mem_closure es a
  | tail _ hadj ih => exact closure_closed ih hadj

theorem reach_iff_reaches {es : List Edge} {a b : ℕ} :
    Reach es a b ↔ Reaches es a b :=
  ⟨closure_sound, closure_complete⟩

theorem nodup_flatMap_disjoint {α β : Type} (f : α → List β) :
    ∀ (l : List α), (l.flatMap f).Nodup → ∀ i j (hi : i < l.length) (hj : j < l.length),
      i ≠ j → ∀ x, x ∈ f (l.get ⟨i, hi⟩) → x ∈ f (l.get ⟨j, hj⟩) → False := by
  intro l
  induction l with
  | nil => intro _ i j hi; simp at hi
  | cons a l ih =>
    intro hnd i j hi hj hij x hxi hxj
    rw [List.flatMap_cons, List.nodup_append] at hnd
    obtain ⟨hnd1, hnd2, hdisj⟩ := hnd
    match i, j with
    | 0, 0 => exact hij rfl
    | 0, j + 1 =>
      exact hdisj hxi (List.mem_flatMap.mpr
        ⟨l.get ⟨j, by simpa using hj⟩, List.get_mem _ _ _, hxj⟩)
    | i + 1, 0 =>
      exact hdisj hxj (List.mem_flatMap.mpr
        ⟨l.get ⟨i, by simpa using hi⟩, List.get_mem _ _ _, hxi⟩)
    | i + 1, j + 1 =>
      exact ih hnd2 i j (by simpa using hi) (by simpa using hj)
        (fun h => hij (by simp [h])) x hxi hxj

theorem unique_container {sc : Scene} (hnd : (allNodes sc).Nodup)
    {g g' : Graph} (hg : g ∈ sc.graphs) (hg' : g' ∈ sc.graphs) {x : ℕ}
    (hx : x ∈ g.nodes) (hx' : x ∈ g'.nodes) : g = g' := by
  obtain ⟨i, hgi⟩ := List.mem_iff_get.mp hg
  obtain ⟨j, hgj⟩ := List.mem_iff_get.mp hg'
  by_cases hij : (i : ℕ) = (j : ℕ)
  · rw [← hgi, ← hgj]
    congr 1
    exact Fin.ext hij
  · exfalso
    apply nodup_flatMap_disjoint Graph.nodes sc.graphs hnd i j i.isLt j.isLt hij x
    · show x ∈ (sc.graphs.get ⟨(i : ℕ), i.isLt⟩).nodes
      rw [show sc.graphs.get ⟨(i : ℕ), i.isLt⟩ = g from hgi]
      exact hx
    · show x ∈ (sc.graphs.get ⟨(j : ℕ), j.isLt⟩).nodes
      rw [show sc.graphs.get ⟨(j : ℕ), j.isLt⟩ = g' from hgj]
      exact hx' 

theorem mem_allEdges {sc : Scene} {e : Edge} :
    e ∈ allEdges sc ↔ ∃ g ∈ sc.graphs, e ∈ g.edges := by
  simp [allEdges, List.mem_flatMap]

theorem mem_allNodes {sc : Scene} {x : ℕ} :
    x ∈ allNodes sc ↔ ∃ g ∈ sc.graphs, x ∈ g.nodes := by
  simp [allNodes, List.mem_flatMap]

theorem flatMap_filter_eq {α β : Type} (f : α → List β) (p : β → Bool) :
    ∀ l : List α, l.flatMap (fun a => (f a).filter p) = (l.flatMap f).filter p := by
  intro l
  induction l with
  | nil => rfl
  | cons a l ih => rw [List.flatMap_cons, List.flatMap_cons, List.filter_append, ih]

theorem reaches_of_graph_edges {sc : Scene} {g : Graph} (hg : g ∈ sc.graphs)
    {a b : ℕ} (h : Reaches g.edges a b) : Reaches (allEdges sc) a b :=
  reaches_mono (fun e he => mem_allEdges.mpr ⟨g, hg, he⟩) h

theorem reaches_allEdges_restrict {sc : Scene} (hsw : SWF sc) {g : Graph}
    (hg : g ∈ sc.graphs) {a b : ℕ} (ha : a ∈ g.nodes)
    (h : Reaches (allEdges sc) a b) : Reaches g.edges a b ∧ b ∈ g.nodes := by
  induction h with
  | refl => exact ⟨Relation.ReflTransGen.refl, ha⟩
  | tail _ hadj ih =>
    obtain ⟨hreach, hmem⟩ := ih
    obtain ⟨e, he, hor⟩ := hadj
    obtain ⟨d, hd, hed⟩ := mem_allEdges.mp he
    have hxd : _ ∈ d.nodes ∧ _ ∈ d.nodes := hsw.2.1 d hd e hed
    have hdg : d = g := by
      rcases hor with ⟨h1, _⟩ | ⟨_, h2⟩
      · exact unique_container hsw.1 hd hg (h1 ▸ hxd.1) hmem
      · exact unique_container hsw.1 hd hg (h2 ▸ hxd.2) hmem
    subst hdg
    refine ⟨hreach.tail ⟨e, hed, hor⟩, ?_⟩
    rcases hor with ⟨_, h2⟩ | ⟨h1, _⟩
    · exact h2 ▸ hxd.2
    · exact h1 ▸ hxd.1

theorem reaches_endpoint {es : List Edge} {s y : ℕ} (h : Reaches es s y) :
    y = s ∨ ∃ e ∈ es, incident y e := by
  induction h with
  | refl => exact Or.inl rfl
  | tail _ hadj _ =>
    obtain ⟨e, he, hor⟩ := hadj
    refine Or.inr ⟨e, he, ?_⟩
    rcases hor with ⟨_, h2⟩ | ⟨h1, _⟩
    · exact Or.inr h2
    · exact Or.inl h1

theorem reaches_avoiding {es : List Edge} {comp : List ℕ}
    (hcl : ∀ x ∈ comp, ∀ y, adjE es x y → y ∈ comp) {a b : ℕ}
    (ha : a ∉ comp) (h : Reaches es a b) :
    b ∉ comp ∧
    Reaches (es.filter (fun e => decide (e.src ∉ comp) && decide (e.dst ∉ comp))) a b := by
  induction h with
  | refl => exact ⟨ha, Relation.ReflTransGen.refl⟩
  | tail hab hadj ih =>
    rename_i mid tar
    obtain ⟨hmid, hr⟩ := ih
    obtain ⟨e, he, hor⟩ := hadj
    have htar : tar ∉ comp := by
      intro hc
      exact hmid (hcl _ hc _ (adjE_symm es ⟨e, he, hor⟩))
    have hends : e.src ∉ comp ∧ e.dst ∉ comp := by
      rcases hor with ⟨h1, h2⟩ | ⟨h1, h2⟩
      · exact ⟨h1 ▸ hmid, h2 ▸ htar⟩
      · exact ⟨h1 ▸ htar, h2 ▸ hmid⟩
    refine ⟨htar, hr.tail ⟨e, ?_, hor⟩⟩
    refine List.mem_filter.mpr ⟨he, ?_⟩
    simp [hends.1, hends.2]

theorem reaches_in_comp {es : List Edge} {comp : List ℕ}
    (hcl : ∀ x ∈ comp, ∀ y, adjE es x y → y ∈ comp) {a b : ℕ}
    (ha : a ∈ comp) (h : Reaches es a b) :
    b ∈ comp ∧
    Reaches (es.filter (fun e => decide (e.src ∈ comp) || decide (e.dst ∈ comp))) a b := by
  induction h with
  | refl => exact ⟨ha, Relation.ReflTransGen.refl⟩
  | tail hab hadj ih =>
    obtain ⟨hmid, hr⟩ := ih
    obtain ⟨e, he, hor⟩ := hadj
    have htar := hcl _ hmid _ ⟨e, he, hor⟩
    have htouch : e.src ∈ comp ∨ e.dst ∈ comp := by
      rcases hor with ⟨h1, _⟩ | ⟨_, h2⟩
      · exact Or.inl (h1 ▸ hmid)
      · exact Or.inr (h2 ▸ hmid)
    refine ⟨htar, hr.tail ⟨e, ?_, hor⟩⟩
    refine List.mem_filter.mpr ⟨he, ?_⟩
    rcases htouch with h | h <;> simp [h]

theorem moveComp_graphs_eq (sc : Scene) (comp : List ℕ) :
    (moveComp sc comp).graphs =
      sc.graphs.map (fun g =>
        { nodes := g.nodes.filter (fun n => decide (n ∉ comp))
          edges := g.edges.filter (fun e =>
            decide (e.src ∉ comp) && decide (e.dst ∉ comp)) }) ++
      [{ nodes := (allNodes sc).filter (fun n => decide (n ∈ comp))
         edges := (allEdges sc).filter (fun e =>
           decide (e.src ∈ comp) || decide (e.dst ∈ comp)) }] := by
  unfold moveComp allNodes allEdges
  rw [flatMap_filter_eq Graph.nodes, flatMap_filter_eq Graph.edges]

theorem allNodes_moveComp_eq (sc : Scene) (comp : List ℕ) :
    allNodes (moveComp sc comp) =
      (allNodes sc).filter (fun n => decide (n ∉ comp)) ++
      (allNodes sc).filter (fun n => decide (n ∈ comp)) := by
  unfold allNodes
  rw [moveComp_graphs_eq, List.flatMap_append, List.flatMap_cons, List.flatMap_nil,
    List.append_nil, List.flatMap_map]
  dsimp only
  rw [flatMap_filter_eq Graph.nodes]
  rfl

theorem allEdges_moveComp_eq (sc : Scene) (comp : List ℕ) :
    allEdges (moveComp sc comp) =
      (allEdges sc).filter (fun e => decide (e.src ∉ comp) && decide (e.dst ∉ comp)) ++
      (allEdges sc).filter (fun e => decide (e.src ∈ comp) || decide (e.dst ∈ comp)) := by
  unfold allEdges
  rw [moveComp_graphs_eq, List.flatMap_append, List.flatMap_cons, List.flatMap_nil,
    List.append_nil, List.flatMap_map]
  dsimp only
  rw [flatMap_filter_eq Graph.edges]
  rfl

theorem allNodes_moveComp_perm (sc : Scene) (comp : List ℕ) :
    (allNodes (moveComp sc comp)).Perm (allNodes sc) := by
  rw [allNodes_moveComp_eq]
  have h1 : (allNodes sc).filter (fun n => decide (n ∈ comp)) =
      (allNodes sc).filter (fun n => !decide (n ∉ comp)) :=
    List.filter_congr (fun a _ => by simp)
  rw [h1]
  exact List.filter_append_perm _ _

theorem allEdges_moveComp_sub (sc : Scene) (comp : List ℕ) :
    ∀ e ∈ allEdges (moveComp sc comp), e ∈ allEdges sc := by
  intro e he
  rw [allEdges_moveComp_eq] at he
  rcases List.mem_append.mp he with h | h <;> exact (List.mem_filter.mp h).1

theorem countP_le_of_imp {α : Type} (p q : α → Bool) :
    ∀ l : List α, (∀ a ∈ l, p a → q a) → l.countP p ≤ l.countP q := by
  intro l
  induction l with
  | nil => intro _; simp
  | cons a l ih =>
    intro h
    rw [List.countP_cons, List.countP_cons]
    have ht := ih (fun x hx => h x (List.mem_cons_of_mem a hx))
    by_cases hp : p a
    · rw [if_pos hp, if_pos (h a (List.mem_cons_self a l) hp)]
      omega
    · rw [if_neg hp]
      split <;> omega

theorem countP_eq_imp_rev {α : Type} (p q : α → Bool) :
    ∀ l : List α, (∀ a ∈ l, p a → q a) → l.countP p = l.countP q →
      ∀ a ∈ l, q a → p a := by
  intro l
  induction l with
  | nil => intro _ _ a ha; simp at ha
  | cons a l ih =>
    intro himp heq x hx hq
    rw [List.countP_cons, List.countP_cons] at heq
    have hmono := countP_le_of_imp p q l (fun y hy => himp y (List.mem_cons_of_mem a hy))
    by_cases hp : p a
    · have hqa := himp a (List.mem_cons_self a l) hp
      rw [if_pos hp, if_pos hqa] at heq
      rcases List.mem_cons.mp hx with rfl | hx'
      · exact hp
      · exact ih (fun y hy => himp y (List.mem_cons_of_mem a hy)) (by omega) x hx' hq
    · rw [if_neg hp] at heq
      by_cases hqa : q a
      · rw [if_pos hqa] at heq
        omega
      · rw [if_neg hqa] at heq
        rcases List.mem_cons.mp hx with rfl | hx'
        · exact absurd hq hqa
        · exact ih (fun y hy => himp y (List.mem_cons_of_mem a hy)) (by omega) x hx' hq

theorem countP_range_lt (i : ℕ) : ∀ li : ℕ, i ≤ li →
    (List.range (li + 1)).countP (fun j => decide (i < j)) = li - i := by
  intro li
  induction li with
  | zero =>
    intro hi
    interval_cases i
    simp [List.range_succ]
  | succ li ih =>
    intro hi
    rw [List.range_succ, List.countP_append]
    by_cases hcase : i ≤ li
    · rw [ih hcase]
      have : i < li + 1 := by omega
      simp [this]
      omega
    · have hi' : i = li + 1 := by omega
      subst hi'
      have h0 : (List.range (li + 1 + 1)).countP (fun j => decide (li + 1 < j)) = 0 := by
        rw [List.countP_eq_zero]
        intro j hj
        simp only [List.mem_range] at hj
        simp
        omega
      rw [List.range_succ, List.countP_append] at h0
      omega

theorem skipAdvance_ge (skip : List ℕ) : ∀ f k, k ≤ skipAdvance skip f k := by
  intro f
  induction f with
  | zero => intro k; exact le_refl k
  | succ f ih =>
    intro k
    unfold skipAdvance
    split
    · exact le_trans (by omega) (ih (k + 1))
    · exact le_refl k

theorem skipAdvance_spec (skip : List ℕ) (li : ℕ) (hskip : ∀ j ∈ skip, j ≤ li) :
    ∀ f k, li + 2 ≤ f + k →
      skipAdvance skip f k ∉ skip ∧
      ∀ m, k ≤ m → m < skipAdvance skip f k → m ∈ skip := by
  intro f
  induction f with
  | zero =>
    intro k hk
    have h0 : skipAdvance skip 0 k = k := rfl
    constructor
    · intro hmem
      rw [h0] at hmem
      have := hskip _ hmem
      omega
    · intro m hm1 hm2
      rw [h0] at hm2
      omega
  | succ f ih =>
    intro k hk
    unfold skipAdvance
    split
    · rename_i hmem
      have hrec := ih (k + 1) (by omega)
      refine ⟨hrec.1, ?_⟩
      intro m hm1 hm2
      rcases Nat.eq_or_lt_of_le hm1 with rfl | hm1'
      · exact hmem
      · exact hrec.2 m (by omega) hm2
    · rename_i hmem
      exact ⟨hmem, fun m hm1 hm2 => absurd (lt_of_le_of_lt hm1 hm2) (lt_irrefl k)⟩

theorem indexOf_getLastD {L : List ℕ} (hnd : L.Nodup) (hne : L ≠ []) :
    L.indexOf (L.getLastD 0) = L.length - 1 := by
  have hlt : L.length - 1 < L.length := by
    cases L with
    | nil => exact absurd rfl hne
    | cons a l => simp
  have hgl : L.getLastD 0 = L.get ⟨L.length - 1, hlt⟩ := by
    cases L with
    | nil => exact absurd rfl hne
    | cons a l =>
      rw [show (a :: l).getLastD 0 = (a :: l).getLast (by simp) from rfl]
      exact List.getLast_eq_getElem _ _
  rw [hgl]
  exact List.indexOf_getElem hnd _ _

theorem SWF_moveComp {sc : Scene} {comp : List ℕ} (hsw : SWF sc)
    (hcl : ∀ x ∈ comp, ∀ y, adjE (allEdges sc) x y → y ∈ comp) :
    SWF (moveComp sc comp) := by
  have hiff : ∀ e ∈ allEdges sc, (e.src ∈ comp ↔ e.dst ∈ comp) := by
    intro e he
    constructor
    · intro h
      exact hcl _ h _ ⟨e, he, Or.inl ⟨rfl, rfl⟩⟩
    · intro h
      exact hcl _ h _ ⟨e, he, Or.inr ⟨rfl, rfl⟩⟩
  refine ⟨((allNodes_moveComp_perm sc comp).nodup_iff).mpr hsw.1, ?_, ?_⟩
  · intro g' hg' e he
    rw [moveComp_graphs_eq] at hg'
    rcases List.mem_append.mp hg' with h | h
    · obtain ⟨g, hg, rfl⟩ := List.mem_map.mp h
      obtain ⟨hee, hcond⟩ := List.mem_filter.mp he
      have hint := hsw.2.1 g hg e hee
      simp only [Bool.and_eq_true, decide_eq_true_eq] at hcond
      constructor <;> refine List.mem_filter.mpr ⟨?_, ?_⟩
      · exact hint.1
      · simp [hcond.1]
      · exact hint.2
      · simp [hcond.2]
    · rw [List.mem_singleton] at h
      subst h
      obtain ⟨hee, hcond⟩ := List.mem_filter.mp he
      simp only [Bool.or_eq_true, decide_eq_true_eq] at hcond
      have hboth : e.src ∈ comp ∧ e.dst ∈ comp := by
        rcases hcond with h | h
        · exact ⟨h, (hiff e hee).mp h⟩
        · exact ⟨(hiff e hee).mpr h, h⟩
      obtain ⟨d, hd, hed⟩ := mem_allEdges.mp hee
      have hint := hsw.2.1 d hd e hed
      constructor <;> refine List.mem_filter.mpr ⟨?_, ?_⟩
      · exact mem_allNodes.mpr ⟨d, hd, hint.1⟩
      · simp [hboth.1]
      · exact mem_allNodes.mpr ⟨d, hd, hint.2⟩
      · simp [hboth.2]
  · intro g' hg' e he
    rw [moveComp_graphs_eq] at hg'
    rcases List.mem_append.mp hg' with h | h
    · obtain ⟨g, hg, rfl⟩ := List.mem_map.mp h
      exact hsw.2.2 g hg e (List.mem_filter.mp he).1
    · rw [List.mem_singleton] at h
      subst h
      obtain ⟨d, hd, hed⟩ := mem_allEdges.mp (List.mem_filter.mp he).1
      exact hsw.2.2 d hd e hed

theorem sasLoop_zero (L : List ℕ) (li i : ℕ) (added : Bool) (sc : Scene) :
    sasLoop L li 0 i added sc = (sc, added) := rfl

theorem sasLoop_exit (L : List ℕ) (li fuel i : ℕ) (added : Bool) (sc : Scene)
    (h : ¬i < li) : sasLoop L li (fuel + 1) i added sc = (sc, added) := by
  rw [sasLoop, if_neg h]

theorem sasLoop_succ (L : List ℕ) (li fuel i : ℕ) (added : Bool) (sc : Scene)
    (h : i < li) :
    sasLoop L li (fuel + 1) i added sc =
      (let comp := closure (allEdges sc) (L.getD i 0)
       let skip := (List.range (li + 1)).filter
         (fun j => decide (i < j) && decide (L.getD j 0 ∈ comp))
       let didSplit := skip.length ≠ L.length - i - 1
       sasLoop L li fuel (skipAdvance skip L.length (i + 1)) (added || didSplit)
         (if didSplit then moveComp sc comp else sc)) := by
  rw [sasLoop, if_pos h]

theorem getD_mem {l : List ℕ} {i : ℕ} (h : i < l.length) (d : ℕ) : l.getD i d ∈ l := by
  rw [List.getD_eq_getElem?_getD, List.getElem?_eq_getElem h]
  exact List.getElem_mem h

theorem goodAt_exit {G L : List ℕ} {i : ℕ} {sc : Scene}
    (hgood : GoodAt G L i sc) (hi : L.length - 1 ≤ i) :
    ∀ g ∈ sc.graphs, AlmostConn G g := by
  intro g hg
  rcases hgood g hg with h | h
  · exact h
  · intro a ha haG b hb hbG
    rcases h a ha with haG' | ⟨k1, hk1i, hk1l, hkmem1, hr1⟩
    · exact absurd haG' haG
    rcases h b hb with hbG' | ⟨k2, hk2i, hk2l, hkmem2, hr2⟩
    · exact absurd hbG' hbG
    have hkk : k1 = k2 := by omega
    subst hkk
    exact reaches_trans _ hr1 (reaches_symm _ hr2)

theorem sasLoop_succ_eq (L : List ℕ) (li fuel i : ℕ) (added : Bool) (sc : Scene)
    (h : i < li) :
    sasLoop L li (fuel + 1) i added sc =
      sasLoop L li fuel
        (skipAdvance
          ((List.range (li + 1)).filter (fun j =>
            decide (i < j) && decide (L.getD j 0 ∈ closure (allEdges sc) (L.getD i 0))))
          L.length (i + 1))
        (added || decide (((List.range (li + 1)).filter (fun j =>
            decide (i < j) && decide (L.getD j 0 ∈ closure (allEdges sc) (L.getD i 0)))).length ≠
            L.length - i - 1))
        (if ((List.range (li + 1)).filter (fun j =>
            decide (i < j) && decide (L.getD j 0 ∈ closure (allEdges sc) (L.getD i 0)))).length ≠
            L.length - i - 1
         then moveComp sc (closure (allEdges sc) (L.getD i 0)) else sc) := by
  rw [sasLoop, if_pos h]

theorem sasLoop_spec (L G : List ℕ) (hLnd : L.Nodup) (hLG : ∀ x ∈ L, x ∉ G) :
    ∀ (fuel i : ℕ) (added : Bool) (sc : Scene),
      SWF sc →
      (∀ x ∈ G, ∀ e ∈ allEdges sc, ¬incident x e) →
      (∀ x ∈ L, x ∈ allNodes sc) →
      L.length ≤ fuel + i →
      GoodAt G L i sc →
      SWF (sasLoop L (L.length - 1) fuel i added sc).1 ∧
      (∀ e ∈ allEdges (sasLoop L (L.length - 1) fuel i added sc).1, e ∈ allEdges sc) ∧
      (allNodes (sasLoop L (L.length - 1) fuel i added sc).1).Perm (allNodes sc) ∧
      (∀ g ∈ (sasLoop L (L.length - 1) fuel i added sc).1.graphs, AlmostConn G g) := by
  intro fuel
  induction fuel with
  | zero =>
    intro i added sc hsw hG hL hfuel hgood
    rw [sasLoop_zero]
    exact ⟨hsw, fun e he => he, List.Perm.refl _, goodAt_exit hgood (by omega)⟩
  | succ fuel ih =>
    intro i added sc hsw hG hL hfuel hgood
    by_cases hil : i < L.length - 1
    case neg =>
      rw [sasLoop_exit _ _ _ _ _ _ hil]
      exact ⟨hsw, fun e he => he, List.Perm.refl _, goodAt_exit hgood (by omega)⟩
    case pos =>
      rw [sasLoop_succ_eq _ _ _ _ _ _ hil]
      set comp := closure (allEdges sc) (L.getD i 0) with hcompdef
      set skip := (List.range (L.length - 1 + 1)).filter (fun j =>
        decide (i < j) && decide (L.getD j 0 ∈ comp)) with hskipdef
      have hiL : i < L.length := by omega
      have hsL : L.getD i 0 ∈ L := getD_mem hiL 0
      have hsN := hL _ hsL
      obtain ⟨cs, hcs, hscs⟩ := mem_allNodes.mp hsN
      have hcl : ∀ x ∈ comp, ∀ y, adjE (allEdges sc) x y → y ∈ comp :=
        fun x hx y hadj => closure_closed hx hadj
      have hsComp : L.getD i 0 ∈ comp := self_mem_closure _ _
      have hcompcs : ∀ x ∈ comp, x ∈ cs.nodes := by
        intro x hx
        exact (reaches_allEdges_restrict hsw hcs hscs (closure_sound hx)).2
      have hskip_mem : ∀ j ∈ skip, i < j ∧ j ≤ L.length - 1 ∧ L.getD j 0 ∈ comp := by
        intro j hj
        obtain ⟨hr, hc⟩ := List.mem_filter.mp hj
        simp only [Bool.and_eq_true, decide_eq_true_eq] at hc
        have := List.mem_range.mp hr
        exact ⟨hc.1, by omega, hc.2⟩
      have hskip_mem' : ∀ j, i < j → j ≤ L.length - 1 → L.getD j 0 ∈ comp → j ∈ skip := by
        intro j h1 h2 h3
        refine List.mem_filter.mpr ⟨List.mem_range.mpr (by omega), ?_⟩
        simp only [Bool.and_eq_true, decide_eq_true_eq]
        exact ⟨h1, h3⟩
      have hnextI_ge := skipAdvance_ge skip L.length (i + 1)
      have hsa := skipAdvance_spec skip (L.length - 1) (fun j hj => (hskip_mem j hj).2.1)
        L.length (i + 1) (by omega)
      have hkge : ∀ k, i ≤ k → k < L.length → L.getD k 0 ∉ comp →
          skipAdvance skip L.length (i + 1) ≤ k := by
        intro k hk1 hk2 hk3
        rcases Nat.eq_or_lt_of_le hk1 with rfl | hk1'
        · exact absurd hsComp hk3
        · by_contra hlt
          push_neg at hlt
          exact hk3 (hskip_mem k (hsa.2 k (by omega) hlt)).2.2
      by_cases hds : skip.length ≠ L.length - i - 1
      · rw [if_pos hds]
        have hgood' : GoodAt G L (skipAdvance skip L.length (i + 1)) (moveComp sc comp) := by
          intro g' hg'
          rw [moveComp_graphs_eq] at hg'
          rcases List.mem_append.mp hg' with hm | hm
          · obtain ⟨g, hg, rfl⟩ := List.mem_map.mp hm
            have hclg : ∀ x ∈ comp, ∀ z, adjE g.edges x z → z ∈ comp :=
              fun x hx z hadj =>
                hcl x hx z (adjE_mono (fun e he => mem_allEdges.mpr ⟨g, hg, he⟩) hadj)
            rcases hgood g hg with hc | hw
            · left
              intro a ha haG b hb hbG
              have ha' := List.mem_filter.mp ha
              have hb' := List.mem_filter.mp hb
              have hanc : a ∉ comp := by simpa using ha'.2
              exact (reaches_avoiding hclg hanc (hc a ha'.1 haG b hb'.1 hbG)).2
            · right
              intro y hy
              have hy' := List.mem_filter.mp hy
              have hync : y ∉ comp := by simpa using hy'.2
              rcases hw y hy'.1 with hyG | ⟨k, hk1, hk2, hk3, hk4⟩
              · exact Or.inl hyG
              right
              have hLkc : L.getD k 0 ∉ comp := by
                intro hW
                apply hync
                exact closure_complete (reaches_trans _ (closure_sound hW)
                  (reaches_of_graph_edges hg (reaches_symm _ hk4)))
              have hav := reaches_avoiding hclg hync hk4
              exact ⟨k, hkge k hk1 hk2 hLkc, hk2,
                List.mem_filter.mpr ⟨hk3, by simpa using hLkc⟩, hav.2⟩
          · rw [List.mem_singleton] at hm
            subst hm
            left
            intro a ha haG b hb hbG
            have hac : a ∈ comp := by simpa using (List.mem_filter.mp ha).2
            have hbc : b ∈ comp := by simpa using (List.mem_filter.mp hb).2
            exact (reaches_in_comp hcl hac (reaches_trans _
              (reaches_symm _ (closure_sound hac)) (closure_sound hbc))).2
        obtain ⟨c1, c2, c3, c4⟩ := ih (skipAdvance skip L.length (i + 1)) _
          (moveComp sc comp) (SWF_moveComp hsw hcl)
          (fun x hx e he => hG x hx e (allEdges_moveComp_sub _ _ e he))
          (fun x hx => ((allNodes_moveComp_perm sc comp).mem_iff).mpr (hL x hx))
          (by omega) hgood'
        exact ⟨c1, fun e he => allEdges_moveComp_sub _ _ e (c2 e he),
          c3.trans (allNodes_moveComp_perm _ _), c4⟩
      · rw [if_neg hds]
        push_neg at hds
        have hcover : ∀ j, i < j → j ≤ L.length - 1 → L.getD j 0 ∈ comp := by
          intro j hj1 hj2
          have himp : ∀ a ∈ List.range (L.length - 1 + 1),
              (fun j => decide (i < j) && decide (L.getD j 0 ∈ comp)) a = true →
              (fun j => decide (i < j)) a = true := by
            intro a _ h
            simp only [Bool.and_eq_true] at h
            exact h.1
          have hcnt1 : skip.length = (List.range (L.length - 1 + 1)).countP
              (fun j => decide (i < j) && decide (L.getD j 0 ∈ comp)) := by
            rw [hskipdef]
            exact (List.countP_eq_length_filter _ _).symm
          have hcnt2 := countP_range_lt i (L.length - 1) (by omega)
          have heq : (List.range (L.length - 1 + 1)).countP
              (fun j => decide (i < j) && decide (L.getD j 0 ∈ comp)) =
              (List.range (L.length - 1 + 1)).countP (fun j => decide (i < j)) := by
            omega
          have hj3 := countP_eq_imp_rev _ _ (List.range (L.length - 1 + 1)) himp heq j
            (List.mem_range.mpr (by omega)) (by simp [hj1])
          simp only [Bool.and_eq_true, decide_eq_true_eq] at hj3
          exact hj3.2
        have hgoodN : GoodAt G L (skipAdvance skip L.length (i + 1)) sc := by
          intro g hg
          left
          rcases hgood g hg with hc | hw
          · exact hc
          · intro a ha haG b hb hbG
            rcases hw a ha with h | ⟨k1, hk1i, hk1l, hm1, hr1⟩
            · exact absurd h haG
            rcases hw b hb with h | ⟨k2, hk2i, hk2l, hm2, hr2⟩
            · exact absurd h hbG
            have ht1 : L.getD k1 0 ∈ comp := by
              rcases Nat.eq_or_lt_of_le hk1i with heq | hlt
              · rw [← heq]; exact hsComp
              · exact hcover k1 hlt (by omega)
            have ht2 : L.getD k2 0 ∈ comp := by
              rcases Nat.eq_or_lt_of_le hk2i with heq | hlt
              · rw [← heq]; exact hsComp
              · exact hcover k2 hlt (by omega)
            have htt : Reaches (allEdges sc) (L.getD k1 0) (L.getD k2 0) :=
              reaches_trans _ (reaches_symm _ (closure_sound ht1)) (closure_sound ht2)
            have htg := (reaches_allEdges_restrict hsw hg hm1 htt).1
            exact reaches_trans _ hr1 (reaches_trans _ htg (reaches_symm _ hr2))
        exact ih (skipAdvance skip L.length (i + 1)) _ sc hsw hG hL (by omega) hgoodN

theorem getD_mem_poly {α : Type} {l : List α} {i : ℕ} (h : i < l.length) (d : α) :
    l.getD i d ∈ l := by
  rw [List.getD_eq_getElem?_getD, List.getElem?_eq_getElem h]
  exact List.getElem_mem h

theorem connected_iff_almostConn (g : Graph) : Connected g ↔ AlmostConn [] g := by
  unfold Connected AlmostConn
  constructor
  · intro h a ha _ b hb _
    exact reach_iff_reaches.mp (h a ha b hb)
  · intro h a ha b hb
    exact reach_iff_reaches.mpr (h a ha (by simp) b hb (by simp))

theorem WF_iff (sc : Scene) : WF sc ↔ SWF sc ∧ ∀ g ∈ sc.graphs, AlmostConn [] g := by
  unfold WF SWF
  constructor
  · rintro ⟨h1, h2, h3, h4⟩
    exact ⟨⟨h1, h2, h3⟩, fun g hg => (connected_iff_almostConn g).mp (h4 g hg)⟩
  · rintro ⟨⟨h1, h2, h3⟩, h4⟩
    exact ⟨h1, h2, h3, fun g hg => (connected_iff_almostConn g).mpr (h4 g hg)⟩

theorem searchAndSeparate_spec (sc : Scene) (L G : List ℕ)
    (hLnd : L.Nodup) (hLG : ∀ x ∈ L, x ∉ G)
    (hsw : SWF sc) (hG : ∀ x ∈ G, ∀ e ∈ allEdges sc, ¬incident x e)
    (hL : ∀ x ∈ L, x ∈ allNodes sc) (hgood : GoodAt G L 0 sc) :
    SWF (searchAndSeparate sc L).1 ∧
    (∀ e ∈ allEdges (searchAndSeparate sc L).1, e ∈ allEdges sc) ∧
    (allNodes (searchAndSeparate sc L).1).Perm (allNodes sc) ∧
    (∀ g ∈ (searchAndSeparate sc L).1.graphs, AlmostConn G g) := by
  by_cases hLe : L = []
  · subst hLe
    have h0 : searchAndSeparate sc [] = (sc, false) := rfl
    rw [h0]
    exact ⟨hsw, fun e he => he, List.Perm.refl _, goodAt_exit hgood (by simp)⟩
  · unfold searchAndSeparate
    rw [indexOf_getLastD hLnd hLe]
    exact sasLoop_spec L G hLnd hLG L.length 0 false sc hsw hG hL (by omega) hgood

theorem flatMap_decomp {α β : Type} (f : α → List β) (l : List α) (p : ℕ)
    (hp : p < l.length) :
    l.flatMap f =
      (l.take p).flatMap f ++ (f (l.get ⟨p, hp⟩) ++ (l.drop (p + 1)).flatMap f) := by
  conv_lhs => rw [← List.take_append_drop p l]
  rw [List.flatMap_append, List.drop_eq_getElem_cons hp, List.flatMap_cons]
  rfl

theorem flatMap_eraseIdx {α β : Type} (f : α → List β) (l : List α) (p : ℕ) :
    (l.eraseIdx p).flatMap f = (l.take p).flatMap f ++ (l.drop (p + 1)).flatMap f := by
  rw [List.eraseIdx_eq_take_drop_succ, List.flatMap_append]

theorem flatMap_set {α β : Type} (f : α → List β) (l : List α) (p : ℕ) (v : α)
    (hp : p < l.length) :
    (l.set p v).flatMap f =
      (l.take p).flatMap f ++ (f v ++ (l.drop (p + 1)).flatMap f) := by
  rw [List.set_eq_take_cons_drop v hp, List.flatMap_append, List.flatMap_cons]

theorem mem_eraseIdx_or {α : Type} :
    ∀ (l : List α) (p : ℕ) (hp : p < l.length) (a : α), a ∈ l →
      a ∈ l.eraseIdx p ∨ a = l.get ⟨p, hp⟩
  | _ :: _, 0, _, a, ha => by
    rcases List.mem_cons.mp ha with h | h
    · exact Or.inr h
    · exact Or.inl h
  | b :: t, p + 1, hp, a, ha => by
    rcases List.mem_cons.mp ha with h | h
    · exact Or.inl (by rw [List.eraseIdx_cons_succ]; exact h ▸ List.mem_cons_self b _)
    · rcases mem_eraseIdx_or t p (by simpa using hp) a h with h' | h'
      · exact Or.inl (by rw [List.eraseIdx_cons_succ]; exact List.mem_cons_of_mem b h')
      · exact Or.inr h'

theorem nodup_flatMap_parts {α β : Type} {f : α → List β} {l : List α}
    (h : (l.flatMap f).Nodup) : ∀ a ∈ l, (f a).Nodup := by
  induction l with
  | nil => intro a ha; cases ha
  | cons b t ih =>
    rw [List.flatMap_cons, List.nodup_append] at h
    intro a ha
    rcases List.mem_cons.mp ha with rfl | ha'
    · exact h.1
    · exact ih h.2.1 a ha'

theorem reaches_eraseIdx {es : List Edge} {p : ℕ} (hp : p < es.length) {y t : ℕ}
    (h : Reaches es y t) :
    Reaches (es.eraseIdx p) y t ∨
    Reaches (es.eraseIdx p) y (es.get ⟨p, hp⟩).src ∨
    Reaches (es.eraseIdx p) y (es.get ⟨p, hp⟩).dst := by
  induction h with
  | refl => exact Or.inl Relation.ReflTransGen.refl
  | tail h1 h2 ih =>
    obtain ⟨f, hf, hor⟩ := h2
    rcases ih with ihl | ih'
    · rcases mem_eraseIdx_or es p hp f hf with hfe | hfe
      · exact Or.inl (Relation.ReflTransGen.tail ihl ⟨f, hfe, hor⟩)
      · rcases hor with ⟨hsrc, hdst⟩ | ⟨hsrc, hdst⟩
        · refine Or.inr (Or.inl ?_)
          have hm : (es.get ⟨p, hp⟩).src = f.src := by rw [hfe]
          rw [hm, hsrc]; exact ihl
        · refine Or.inr (Or.inr ?_)
          have hm : (es.get ⟨p, hp⟩).dst = f.dst := by rw [hfe]
          rw [hm, hdst]; exact ihl
    · exact Or.inr ih'

theorem WF_deleteEdge_core {sc : Scene} {gi ei : ℕ} {g : Graph} {e : Edge}
    (hgi : gi < sc.graphs.length) (hgd : sc.graphs.getD gi default = g)
    (hei : ei < g.edges.length) (hed : g.edges.getD ei default = e)
    (hw : WF sc) :
    WF (searchAndSeparate (⟨sc.graphs.set gi ⟨g.nodes, g.edges.eraseIdx ei⟩⟩ : Scene)
      [e.dst, e.src]).1 := by
  rw [WF_iff] at hw
  obtain ⟨hsw, hconn⟩ := hw
  have hg_mem : g ∈ sc.graphs := hgd ▸ getD_mem_poly hgi default
  have he_mem : e ∈ g.edges := hed ▸ getD_mem_poly hei default
  have hint := hsw.2.1 g hg_mem e he_mem
  have hne : e.src ≠ e.dst := hsw.2.2 g hg_mem e he_mem
  have hgget : sc.graphs.get ⟨gi, hgi⟩ = g := by
    rw [← hgd, List.getD_eq_getElem?_getD, List.getElem?_eq_getElem hgi]
    rfl
  have heget : g.edges.get ⟨ei, hei⟩ = e := by
    rw [← hed, List.getD_eq_getElem?_getD, List.getElem?_eq_getElem hei]
    rfl
  set sc1 : Scene := ⟨sc.graphs.set gi ⟨g.nodes, g.edges.eraseIdx ei⟩⟩ with hsc1
  have hnodes : allNodes sc1 = allNodes sc := by
    show (sc.graphs.set gi (⟨g.nodes, g.edges.eraseIdx ei⟩ : Graph)).flatMap Graph.nodes
        = sc.graphs.flatMap Graph.nodes
    rw [flatMap_set Graph.nodes sc.graphs gi _ hgi,
        flatMap_decomp Graph.nodes sc.graphs gi hgi, hgget]
  have hsw1 : SWF sc1 := by
    refine ⟨?_, ?_, ?_⟩
    · rw [hnodes]; exact hsw.1
    · intro c hc f hf
      rcases List.mem_or_eq_of_mem_set hc with hco | rfl
      · exact hsw.2.1 c hco f hf
      · exact hsw.2.1 g hg_mem f ((List.eraseIdx_sublist g.edges ei).subset hf)
    · intro c hc f hf
      rcases List.mem_or_eq_of_mem_set hc with hco | rfl
      · exact hsw.2.2 c hco f hf
      · exact hsw.2.2 g hg_mem f ((List.eraseIdx_sublist g.edges ei).subset hf)
  have hLnd : ([e.dst, e.src] : List ℕ).Nodup := by
    simp [List.nodup_cons]
    exact fun h => hne h.symm
  have hG0 : ∀ x ∈ ([] : List ℕ), ∀ f ∈ allEdges sc1, ¬incident x f := by simp
  have hLG0 : ∀ x ∈ [e.dst, e.src], x ∉ ([] : List ℕ) := by simp
  have hL0 : ∀ x ∈ [e.dst, e.src], x ∈ allNodes sc1 := by
    intro x hx
    rw [hnodes]
    rcases List.mem_cons.mp hx with rfl | hx'
    · exact mem_allNodes.mpr ⟨g, hg_mem, hint.2⟩
    · rw [List.mem_singleton] at hx'
      subst hx'
      exact mem_allNodes.mpr ⟨g, hg_mem, hint.1⟩
  have hgood : GoodAt [] [e.dst, e.src] 0 sc1 := by
    intro c hc
    rcases List.mem_or_eq_of_mem_set hc with hco | rfl
    · exact Or.inl (hconn c hco)
    · refine Or.inr ?_
      intro y hy
      refine Or.inr ?_
      have hyg : y ∈ g.nodes := hy
      have hreach : Reaches g.edges y e.src :=
        hconn g hg_mem y hyg (by simp) e.src hint.1 (by simp)
      rcases reaches_eraseIdx hei hreach with h1 | h1 | h1
      · exact ⟨1, by omega, by simp, hint.1, h1⟩
      · rw [heget] at h1
        exact ⟨1, by omega, by simp, hint.1, h1⟩
      · rw [heget] at h1
        exact ⟨0, by omega, by simp, hint.2, h1⟩
  obtain ⟨hsw', _, _, halmost⟩ :=
    searchAndSeparate_spec sc1 [e.dst, e.src] [] hLnd hLG0 hsw1 hG0 hL0 hgood
  exact (WF_iff _).mpr ⟨hsw', fun c hc => halmost c hc⟩

theorem WF_deleteEdge {sc : Scene} (hw : WF sc) (gi ei : ℕ) :
    WF (deleteEdge sc gi ei) := by
  unfold deleteEdge
  by_cases hvalid : gi < sc.graphs.length ∧
      ei < (sc.graphs.getD gi default).edges.length
  · rw [if_pos hvalid]
    exact WF_deleteEdge_core hvalid.1 rfl hvalid.2 rfl hw
  · rw [if_neg hvalid]; exact hw

theorem adjacentStep_subset (x : ℕ) (acc : List ℕ) (e : Edge) :
    ∀ y ∈ acc, y ∈ adjacentStep x acc e := by
  intro y hy
  unfold adjacentStep
  split_ifs <;> simp [hy]

theorem adjacentStep_not_x (x : ℕ) (acc : List ℕ) (e : Edge) (hx : x ∉ acc) :
    x ∉ adjacentStep x acc e := by
  unfold adjacentStep
  split_ifs with h1 h2
  · simp only [List.mem_append, List.mem_singleton]
    rintro (h | h)
    · exact hx h
    · exact h1.2 h.symm
  · simp only [List.mem_append, List.mem_singleton]
    rintro (h | h)
    · exact hx h
    · exact h2.2 h.symm
  · exact hx

theorem adjacentStep_nodup (x : ℕ) (acc : List ℕ) (e : Edge) (h : acc.Nodup) :
    (adjacentStep x acc e).Nodup := by
  unfold adjacentStep
  split_ifs with h1 h2
  · refine List.Nodup.append h (List.nodup_singleton _) ?_
    intro a ha hb
    rw [List.mem_singleton] at hb
    subst hb
    exact h1.1 ha
  · refine List.Nodup.append h (List.nodup_singleton _) ?_
    intro a ha hb
    rw [List.mem_singleton] at hb
    subst hb
    exact h2.1 ha
  · exact h

theorem adjacentStep_sound (x : ℕ) (acc : List ℕ) (e : Edge) :
    ∀ y ∈ adjacentStep x acc e, y ∈ acc ∨ y = e.src ∨ y = e.dst := by
  intro y hy
  unfold adjacentStep at hy
  split_ifs at hy
  · rcases List.mem_append.mp hy with h | h
    · exact Or.inl h
    · exact Or.inr (Or.inr (List.mem_singleton.mp h))
  · rcases List.mem_append.mp hy with h | h
    · exact Or.inl h
    · exact Or.inr (Or.inl (List.mem_singleton.mp h))
  · exact Or.inl hy

theorem adjacentStep_other (x : ℕ) (acc : List ℕ) (e : Edge)
    (hne : (if e.dst = x then e.src else e.dst) ≠ x) :
    (if e.dst = x then e.src else e.dst) ∈ adjacentStep x acc e := by
  by_cases hdx : e.dst = x
  · rw [if_pos hdx] at hne ⊢
    by_cases hsa : e.src ∈ acc
    · exact adjacentStep_subset x acc e e.src hsa
    · unfold adjacentStep
      rw [if_neg (fun h => h.2 hdx), if_pos ⟨hsa, hne⟩]
      simp
  · rw [if_neg hdx] at hne ⊢
    by_cases hda : e.dst ∈ acc
    · exact adjacentStep_subset x acc e e.dst hda
    · unfold adjacentStep
      rw [if_pos ⟨hda, hne⟩]
      simp

theorem adjacentFold_inv (x : ℕ) :
    ∀ (es : List Edge) (acc : List ℕ), x ∉ acc → acc.Nodup →
      x ∉ es.foldl (adjacentStep x) acc ∧
      (es.foldl (adjacentStep x) acc).Nodup ∧
      (∀ y ∈ es.foldl (adjacentStep x) acc,
        y ∈ acc ∨ ∃ e ∈ es, y = e.src ∨ y = e.dst) ∧
      (∀ y ∈ acc, y ∈ es.foldl (adjacentStep x) acc) ∧
      (∀ e ∈ es, (if e.dst = x then e.src else e.dst) ≠ x →
        (if e.dst = x then e.src else e.dst) ∈ es.foldl (adjacentStep x) acc)
  | [], acc, hx, hnd =>
    ⟨hx, hnd, fun y hy => Or.inl hy, fun _ hy => hy,
     fun e he => absurd he (List.not_mem_nil e)⟩
  | e :: es, acc, hx, hnd => by
    have hx' := adjacentStep_not_x x acc e hx
    have hnd' := adjacentStep_nodup x acc e hnd
    obtain ⟨i1, i2, i3, i4, i5⟩ := adjacentFold_inv x es (adjacentStep x acc e) hx' hnd'
    rw [List.foldl_cons]
    refine ⟨i1, i2, ?_, ?_, ?_⟩
    · intro y hy
      rcases i3 y hy with hyin | ⟨f, hf, hor⟩
      · rcases adjacentStep_sound x acc e y hyin with h | h
        · exact Or.inl h
        · exact Or.inr ⟨e, List.mem_cons_self e es, h⟩
      · exact Or.inr ⟨f, List.mem_cons_of_mem e hf, hor⟩
    · intro y hy
      exact i4 y (adjacentStep_subset x acc e y hy)
    · intro f hf hne
      rcases List.mem_cons.mp hf with rfl | hf'
      · exact i4 _ (adjacentStep_other x acc f hne)
      · exact i5 f hf' hne

theorem adjacentNodes_spec (sc : Scene) (x : ℕ) :
    x ∉ adjacentNodes sc x ∧
    (adjacentNodes sc x).Nodup ∧
    (∀ y ∈ adjacentNodes sc x,
      ∃ e ∈ allEdges sc, incident x e ∧ (y = e.src ∨ y = e.dst)) ∧
    (∀ e ∈ allEdges sc, incident x e → (if e.dst = x then e.src else e.dst) ≠ x →
      (if e.dst = x then e.src else e.dst) ∈ adjacentNodes sc x) := by
  obtain ⟨i1, i2, i3, _, i5⟩ :=
    adjacentFold_inv x ((allEdges sc).filter (fun e => decide (incident x e))) []
      (List.not_mem_nil x) List.nodup_nil
  refine ⟨i1, i2, ?_, ?_⟩
  · intro y hy
    rcases i3 y hy with h | ⟨e, he, hor⟩
    · cases h
    · obtain ⟨hee, hinc⟩ := List.mem_filter.mp he
      exact ⟨e, hee, by simpa using hinc, hor⟩
  · intro e he hinc hne
    exact i5 e (List.mem_filter.mpr ⟨he, by simpa using hinc⟩) hne

theorem otherEnd_eq {f : Edge} {x c : ℕ} (hcx : c ≠ x)
    (hor : (f.src = x ∧ f.dst = c) ∨ (f.src = c ∧ f.dst = x)) :
    c = (if f.dst = x then f.src else f.dst) := by
  rcases hor with ⟨h1, h2⟩ | ⟨h1, h2⟩
  · rw [if_neg (fun h => hcx (h2.symm.trans h))]
    exact h2.symm
  · rw [if_pos h2]
    exact h1.symm

theorem reaches_from_x {es : List Edge} {x t : ℕ} (h : Reaches es x t) :
    t = x ∨ ∃ n, n ≠ x ∧
      (∃ e ∈ es, incident x e ∧ n = (if e.dst = x then e.src else e.dst)) ∧
      Reaches (es.filter (fun e => !decide (incident x e))) n t := by
  induction h with
  | refl => exact Or.inl rfl
  | tail h1 h2 ih =>
    rename_i b c
    obtain ⟨f, hf, hor⟩ := h2
    by_cases hcx : c = x
    · exact Or.inl hcx
    rcases ih with hbx | ⟨n, hnx, hwit, hreach⟩
    · subst hbx
      refine Or.inr ⟨c, hcx, ⟨f, hf, ?_, otherEnd_eq hcx hor⟩, Relation.ReflTransGen.refl⟩
      rcases hor with ⟨hh, _⟩ | ⟨_, hh⟩
      · exact Or.inl hh
      · exact Or.inr hh
    · by_cases hincf : incident x f
      · have hbx : b = x := by
          rcases hincf with h | h <;> rcases hor with ⟨h1, h2⟩ | ⟨h1, h2⟩
          · exact h1.symm.trans h
          · exact absurd (h1.symm.trans h) hcx
          · exact absurd (h2.symm.trans h) hcx
          · exact h2.symm.trans h
        subst hbx
        refine Or.inr ⟨c, hcx, ⟨f, hf, ?_, otherEnd_eq hcx hor⟩, Relation.ReflTransGen.refl⟩
        rcases hor with ⟨hh, _⟩ | ⟨_, hh⟩
        · exact Or.inl hh
        · exact Or.inr hh
      · refine Or.inr ⟨n, hnx, hwit, Relation.ReflTransGen.tail hreach ?_⟩
        exact ⟨f, List.mem_filter.mpr ⟨hf, by simp [hincf]⟩, hor⟩

theorem reaches_to_neighbor {es : List Edge} {x y : ℕ} (h : Reaches es y x) :
    y = x ∨ ∃ n, n ≠ x ∧
      (∃ e ∈ es, incident x e ∧ n = (if e.dst = x then e.src else e.dst)) ∧
      Reaches (es.filter (fun e => !decide (incident x e))) y n := by
  rcases reaches_from_x (reaches_symm _ h) with h' | ⟨n, hnx, hwit, hreach⟩
  · exact Or.inl h'
  · exact Or.inr ⟨n, hnx, hwit, reaches_symm _ hreach⟩

theorem findIdx?_some_spec {α : Type} {p : α → Bool} {l : List α} {i : ℕ}
    (h : l.findIdx? p = some i) : ∃ hi : i < l.length, p (l.get ⟨i, hi⟩) = true := by
  obtain ⟨h1, h2⟩ := List.findIdx?_eq_some_iff_findIdx_eq.mp h
  refine ⟨h1, ?_⟩
  subst h2
  exact List.findIdx_getElem

theorem nodup_of_sublist_middle {α : Type} {A B B' C : List α}
    (hs : List.Sublist B' B) (h : (A ++ (B ++ C)).Nodup) : (A ++ (B' ++ C)).Nodup :=
  (List.Sublist.append (List.Sublist.refl A)
    (List.Sublist.append hs (List.Sublist.refl C))).nodup h

theorem deleteNode_mid (sc : Scene) (x : ℕ) (hw : WF sc) (sc1 sc2 : Scene)
    (hsc1 : sc1 = ⟨sc.graphs.map (fun g =>
      { g with edges := g.edges.filter (fun e => !decide (incident x e)) })⟩)
    (hsc2 : sc2 = if 1 < (adjacentNodes sc x).length
      then (searchAndSeparate sc1 (adjacentNodes sc x)).1 else sc1) :
    SWF sc2 ∧ (∀ e ∈ allEdges sc2, ¬incident x e) ∧
    (allNodes sc2).Perm (allNodes sc) ∧ (∀ g ∈ sc2.graphs, AlmostConn [x] g) := by
  subst hsc2
  rw [WF_iff] at hw
  obtain ⟨hsw, hconn⟩ := hw
  obtain ⟨hadj_nx, hadj_nd, hadj_sound, hadj_complete⟩ := adjacentNodes_spec sc x
  have hnodes1 : allNodes sc1 = allNodes sc := by
    rw [hsc1]
    unfold allNodes
    rw [List.flatMap_map]
  have hedges1 : allEdges sc1 = (allEdges sc).filter (fun e => !decide (incident x e)) := by
    rw [hsc1]
    unfold allEdges
    rw [List.flatMap_map]
    exact flatMap_filter_eq Graph.edges (fun e => !decide (incident x e)) sc.graphs
  have hsw1 : SWF sc1 := by
    refine ⟨by rw [hnodes1]; exact hsw.1, ?_, ?_⟩
    · intro c hc f hf
      rw [hsc1] at hc
      obtain ⟨g, hg, rfl⟩ := List.mem_map.mp hc
      exact hsw.2.1 g hg f (List.mem_filter.mp hf).1
    · intro c hc f hf
      rw [hsc1] at hc
      obtain ⟨g, hg, rfl⟩ := List.mem_map.mp hc
      exact hsw.2.2 g hg f (List.mem_filter.mp hf).1
  have hni1 : ∀ e ∈ allEdges sc1, ¬incident x e := by
    intro e he hinc
    rw [hedges1] at he
    have h2 := (List.mem_filter.mp he).2
    simp at h2
    exact h2 hinc
  have hcon1 : ∀ g ∈ sc.graphs, x ∉ g.nodes →
      AlmostConn [x] ({ g with
        edges := g.edges.filter (fun e => !decide (incident x e)) } : Graph) := by
    intro g hg hxg a ha _ b hb _
    refine reaches_mono ?_ (hconn g hg a ha (by simp) b hb (by simp))
    intro e he
    refine List.mem_filter.mpr ⟨he, ?_⟩
    have hint := hsw.2.1 g hg e he
    have hnix : ¬incident x e := by
      rintro (h | h)
      · exact hxg (h ▸ hint.1)
      · exact hxg (h ▸ hint.2)
    simp [hnix]
  have hcon2 : ∀ g ∈ sc.graphs, x ∈ g.nodes → (adjacentNodes sc x).length ≤ 1 →
      AlmostConn [x] ({ g with
        edges := g.edges.filter (fun e => !decide (incident x e)) } : Graph) := by
    intro g hg hxg hlen a ha hax b hb hbx
    have hax' : a ≠ x := by simpa using hax
    have hbx' : b ≠ x := by simpa using hbx
    have hra : Reaches g.edges a x := hconn g hg a ha (by simp) x hxg (by simp)
    have hrb : Reaches g.edges b x := hconn g hg b hb (by simp) x hxg (by simp)
    rcases reaches_to_neighbor hra with h | ⟨na, hna, ⟨ea, hea, hia, heqa⟩, hrea⟩
    · exact absurd h hax'
    rcases reaches_to_neighbor hrb with h | ⟨nb, hnb, ⟨eb, heb, hib, heqb⟩, hreb⟩
    · exact absurd h hbx'
    have hnaa : na ∈ adjacentNodes sc x := by
      rw [heqa]
      exact hadj_complete ea (mem_allEdges.mpr ⟨g, hg, hea⟩) hia (heqa ▸ hna)
    have hnbb : nb ∈ adjacentNodes sc x := by
      rw [heqb]
      exact hadj_complete eb (mem_allEdges.mpr ⟨g, hg, heb⟩) hib (heqb ▸ hnb)
    have heq : na = nb := by
      rcases hA : adjacentNodes sc x with _ | ⟨w, t⟩
      · rw [hA] at hnaa; cases hnaa
      · rcases t with _ | ⟨w2, t2⟩
        · rw [hA] at hnaa hnbb
          rw [List.mem_singleton] at hnaa hnbb
          rw [hnaa, hnbb]
        · rw [hA] at hlen; simp at hlen
    exact reaches_trans _ hrea (heq.symm ▸ reaches_symm _ hreb)
  have hgood : GoodAt [x] (adjacentNodes sc x) 0 sc1 := by
    intro c hc
    rw [hsc1] at hc
    obtain ⟨g, hg, rfl⟩ := List.mem_map.mp hc
    by_cases hxg : x ∈ g.nodes
    · refine Or.inr ?_
      intro y hy
      by_cases hyx : y = x
      · exact Or.inl (by simp [hyx])
      · refine Or.inr ?_
        have hreach : Reaches g.edges y x := hconn g hg y hy (by simp) x hxg (by simp)
        rcases reaches_to_neighbor hreach with h | ⟨n, hnx, ⟨e, he, hinc, heqn⟩, hre⟩
        · exact absurd h hyx
        have hnadj : n ∈ adjacentNodes sc x := by
          rw [heqn]
          exact hadj_complete e (mem_allEdges.mpr ⟨g, hg, he⟩) hinc (heqn ▸ hnx)
        obtain ⟨k, hk, hkeq⟩ := List.mem_iff_getElem.mp hnadj
        have hgetd : (adjacentNodes sc x).getD k 0 = n := by
          rw [List.getD_eq_getElem?_getD, List.getElem?_eq_getElem hk]
          exact hkeq
        have hint := hsw.2.1 g hg e he
        have hng : n ∈ g.nodes := by
          rw [heqn]
          split_ifs
          · exact hint.1
          · exact hint.2
        exact ⟨k, Nat.zero_le k, hk, hgetd.symm ▸ hng, hgetd.symm ▸ hre⟩
    · exact Or.inl (hcon1 g hg hxg)
  by_cases hlen : 1 < (adjacentNodes sc x).length
  · rw [if_pos hlen]
    have hLG : ∀ y ∈ adjacentNodes sc x, y ∉ ([x] : List ℕ) := by
      intro y hy
      simp only [List.mem_singleton]
      exact fun h => hadj_nx (h ▸ hy)
    have hGx : ∀ z ∈ ([x] : List ℕ), ∀ e ∈ allEdges sc1, ¬incident z e := by
      intro z hz
      rw [List.mem_singleton] at hz
      subst hz
      exact hni1
    have hL : ∀ y ∈ adjacentNodes sc x, y ∈ allNodes sc1 := by
      intro y hy
      rw [hnodes1]
      obtain ⟨e, he, hinc, hor⟩ := hadj_sound y hy
      obtain ⟨g, hg, heg⟩ := mem_allEdges.mp he
      have hint := hsw.2.1 g hg e heg
      rcases hor with rfl | rfl
      · exact mem_allNodes.mpr ⟨g, hg, hint.1⟩
      · exact mem_allNodes.mpr ⟨g, hg, hint.2⟩
    obtain ⟨hsw', hsub', hperm', halm'⟩ :=
      searchAndSeparate_spec sc1 (adjacentNodes sc x) [x] hadj_nd hLG hsw1 hGx hL hgood
    refine ⟨hsw', ?_, ?_, halm'⟩
    · intro e he
      exact hni1 e (hsub' e he)
    · exact hnodes1 ▸ hperm'
  · rw [if_neg hlen]
    refine ⟨hsw1, hni1, by rw [hnodes1], ?_⟩
    intro c hc
    rw [hsc1] at hc
    obtain ⟨g, hg, rfl⟩ := List.mem_map.mp hc
    by_cases hxg : x ∈ g.nodes
    · exact hcon2 g hg hxg (by omega)
    · exact hcon1 g hg hxg

theorem WF_deleteNode_final (sc2 : Scene) (x : ℕ)
    (hsw : SWF sc2) (hni : ∀ e ∈ allEdges sc2, ¬incident x e)
    (halmost : ∀ g ∈ sc2.graphs, AlmostConn [x] g) :
    WF (match findRootParent sc2 x with
        | some pIdx =>
          let g := sc2.graphs.getD pIdx default
          let g' : Graph := ⟨g.nodes.erase x, g.edges⟩
          if g'.nodes = [] ∧ g'.edges = [] then (⟨sc2.graphs.eraseIdx pIdx⟩ : Scene)
          else ⟨sc2.graphs.set pIdx g'⟩
        | none => sc2) := by
  have hconn_of : ∀ g ∈ sc2.graphs, x ∉ g.nodes → AlmostConn [] g := by
    intro g hg hxg a ha _ b hb _
    refine halmost g hg a ha ?_ b hb ?_
    · simp only [List.mem_singleton]
      exact fun h => hxg (h ▸ ha)
    · simp only [List.mem_singleton]
      exact fun h => hxg (h ▸ hb)
  cases hfind : findRootParent sc2 x with
  | none =>
    refine (WF_iff sc2).mpr ⟨hsw, ?_⟩
    intro c hc
    refine hconn_of c hc ?_
    unfold findRootParent at hfind
    have hall := List.findIdx?_eq_none_iff.mp hfind
    intro hx
    have h2 := hall c hc
    simp at h2
    exact h2 hx
  | some pIdx =>
    have hfind' : sc2.graphs.findIdx? (fun g => decide (x ∈ g.nodes)) = some pIdx := hfind
    obtain ⟨hp1, hp2⟩ := findIdx?_some_spec hfind'
    have hx_in : x ∈ (sc2.graphs.get ⟨pIdx, hp1⟩).nodes := by simpa using hp2
    have hgget : sc2.graphs.getD pIdx default = sc2.graphs.get ⟨pIdx, hp1⟩ := by
      rw [List.getD_eq_getElem?_getD, List.getElem?_eq_getElem hp1]
      rfl
    have hg_mem : sc2.graphs.getD pIdx default ∈ sc2.graphs := getD_mem_poly hp1 default
    have hxg : x ∈ (sc2.graphs.getD pIdx default).nodes := by rw [hgget]; exact hx_in
    have hdec := flatMap_decomp Graph.nodes sc2.graphs pIdx hp1
    rw [← hgget] at hdec
    have hnd : ((sc2.graphs.take pIdx).flatMap Graph.nodes ++
        ((sc2.graphs.getD pIdx default).nodes ++
          (sc2.graphs.drop (pIdx + 1)).flatMap Graph.nodes)).Nodup := by
      have h0 := hsw.1
      unfold allNodes at h0
      rw [hdec] at h0
      exact h0
    obtain ⟨hndA, hndRest, hdisjA⟩ := List.nodup_append.mp hnd
    obtain ⟨hndG, hndB, hdisjGB⟩ := List.nodup_append.mp hndRest
    have hxA : x ∉ (sc2.graphs.take pIdx).flatMap Graph.nodes :=
      fun hx => hdisjA hx (List.mem_append.mpr (Or.inl hxg))
    have hxB : x ∉ (sc2.graphs.drop (pIdx + 1)).flatMap Graph.nodes :=
      fun hx => hdisjGB hxg hx
    have hxE : x ∉ (sc2.graphs.getD pIdx default).nodes.erase x :=
      List.Nodup.not_mem_erase hndG
    show WF (if (sc2.graphs.getD pIdx default).nodes.erase x = [] ∧
        (sc2.graphs.getD pIdx default).edges = []
      then (⟨sc2.graphs.eraseIdx pIdx⟩ : Scene)
      else ⟨sc2.graphs.set pIdx ⟨(sc2.graphs.getD pIdx default).nodes.erase x,
            (sc2.graphs.getD pIdx default).edges⟩⟩)
    by_cases hemp : (sc2.graphs.getD pIdx default).nodes.erase x = [] ∧
        (sc2.graphs.getD pIdx default).edges = []
    · rw [if_pos hemp]
      have hdecE : allNodes (⟨sc2.graphs.eraseIdx pIdx⟩ : Scene) =
          (sc2.graphs.take pIdx).flatMap Graph.nodes ++
          (sc2.graphs.drop (pIdx + 1)).flatMap Graph.nodes :=
        flatMap_eraseIdx Graph.nodes sc2.graphs pIdx
      refine (WF_iff _).mpr ⟨⟨?_, ?_, ?_⟩, ?_⟩
      · rw [hdecE]
        exact List.Nodup.append hndA hndB
          (fun a ha hb => hdisjA ha (List.mem_append.mpr (Or.inr hb)))
      · intro c hc e he
        exact hsw.2.1 c ((List.eraseIdx_sublist _ _).subset hc) e he
      · intro c hc e he
        exact hsw.2.2 c ((List.eraseIdx_sublist _ _).subset hc) e he
      · intro c hc
        refine hconn_of c ((List.eraseIdx_sublist _ _).subset hc) ?_
        intro hx
        have hxin : x ∈ allNodes (⟨sc2.graphs.eraseIdx pIdx⟩ : Scene) :=
          mem_allNodes.mpr ⟨c, hc, hx⟩
        rw [hdecE] at hxin
        rcases List.mem_append.mp hxin with h | h
        · exact hxA h
        · exact hxB h
    · rw [if_neg hemp]
      have hsetdec : allNodes (⟨sc2.graphs.set pIdx
            ⟨(sc2.graphs.getD pIdx default).nodes.erase x,
             (sc2.graphs.getD pIdx default).edges⟩⟩ : Scene) =
          (sc2.graphs.take pIdx).flatMap Graph.nodes ++
          ((sc2.graphs.getD pIdx default).nodes.erase x ++
            (sc2.graphs.drop (pIdx + 1)).flatMap Graph.nodes) :=
        flatMap_set Graph.nodes sc2.graphs pIdx _ hp1
      have hxFin : x ∉ allNodes (⟨sc2.graphs.set pIdx
            ⟨(sc2.graphs.getD pIdx default).nodes.erase x,
             (sc2.graphs.getD pIdx default).edges⟩⟩ : Scene) := by
        rw [hsetdec]
        intro hx
        rcases List.mem_append.mp hx with h | h
        · exact hxA h
        · rcases List.mem_append.mp h with h' | h'
          · exact hxE h'
          · exact hxB h'
      refine (WF_iff _).mpr ⟨⟨?_, ?_, ?_⟩, ?_⟩
      · rw [hsetdec]
        exact nodup_of_sublist_middle (List.erase_sublist x _) hnd
      · intro c hc e he
        rcases List.mem_or_eq_of_mem_set hc with hco | rfl
        · exact hsw.2.1 c hco e he
        · have hint := hsw.2.1 _ hg_mem e he
          have hnix := hni e (mem_allEdges.mpr ⟨_, hg_mem, he⟩)
          constructor
          · exact (List.mem_erase_of_ne (fun h => hnix (Or.inl h))).mpr hint.1
          · exact (List.mem_erase_of_ne (fun h => hnix (Or.inr h))).mpr hint.2
      · intro c hc e he
        rcases List.mem_or_eq_of_mem_set hc with hco | rfl
        · exact hsw.2.2 c hco e he
        · exact hsw.2.2 _ hg_mem e he
      · intro c hc
        have hxc : x ∉ c.nodes := fun hx => hxFin (mem_allNodes.mpr ⟨c, hc, hx⟩)
        rcases List.mem_or_eq_of_mem_set hc with hco | rfl
        · exact hconn_of c hco hxc
        · intro a ha _ b hb _
          have ha' : a ∈ (sc2.graphs.getD pIdx default).nodes := List.mem_of_mem_erase ha
          have hb' : b ∈ (sc2.graphs.getD pIdx default).nodes := List.mem_of_mem_erase hb
          have hax : a ≠ x := fun h => hxc (h ▸ ha)
          have hbx : b ≠ x := fun h => hxc (h ▸ hb)
          exact halmost _ hg_mem a ha' (by simpa using hax) b hb' (by simpa using hbx)

theorem WF_deleteNode {sc : Scene} (hw : WF sc) (x : ℕ) : WF (deleteNode sc x) := by
  unfold deleteNode
  by_cases hsome : (findRootParent sc x).isSome
  · rw [if_pos hsome]
    obtain ⟨hsw2, hni2, _, halmost2⟩ := deleteNode_mid sc x hw _ _ rfl rfl
    exact WF_deleteNode_final _ x hsw2 hni2 halmost2
  · rw [if_neg hsome]; exact hw

theorem enumFilter_cons (a : Graph) (l : List Graph) (q : ℕ × Graph → Bool) :
    (((a :: l).enum.filter q).map Prod.snd) =
      (if q (0, a) then [a] else []) ++
      ((l.enum.filter (fun p => q (p.1 + 1, p.2))).map Prod.snd) := by
  have hshift : ∀ m : List Graph,
      (((m.enum.map (Prod.map (· + 1) id)).filter q).map Prod.snd) =
      ((m.enum.filter (fun p => q (p.1 + 1, p.2))).map Prod.snd) := by
    intro m
    rw [List.map_filter, List.map_map]
    have h1 : (q ∘ Prod.map (· + 1) id) = (fun p : ℕ × Graph => q (p.1 + 1, p.2)) := by
      funext p
      rfl
    have h2 : (Prod.snd ∘ Prod.map (· + 1) id) = (Prod.snd : ℕ × Graph → Graph) := by
      funext p
      rfl
    rw [h1, h2]
  rw [List.enum_cons', List.filter_cons]
  by_cases h0 : q (0, a) = true
  · rw [if_pos h0, if_pos h0, List.map_cons, hshift]
    rfl
  · rw [if_neg h0, if_neg h0, hshift]
    rfl

theorem eraseOne_eq (l : List Graph) : ∀ i : ℕ,
    ((l.enum.filter (fun p => !decide (p.1 = i))).map Prod.snd) = l.eraseIdx i := by
  induction l with
  | nil => intro i; rfl
  | cons a l ih =>
    intro i
    rw [enumFilter_cons]
    cases i with
    | zero =>
      rw [if_neg (by simp)]
      have h1 : (fun p : ℕ × Graph => !decide (p.1 + 1 = 0)) =
          (fun _ : ℕ × Graph => true) := by
        funext p
        simp
      rw [h1, List.filter_true, List.enum_map_snd]
      rfl
    | succ j =>
      rw [if_pos (by simp)]
      have h1 : (fun p : ℕ × Graph => !decide (p.1 + 1 = j + 1)) =
          (fun p : ℕ × Graph => !decide (p.1 = j)) := by
        funext p
        have h2 : (p.1 + 1 = j + 1) ↔ (p.1 = j) := by omega
        have hd : decide (p.1 + 1 = j + 1) = decide (p.1 = j) := decide_eq_decide.mpr h2
        rw [hd]
      rw [h1, ih j]
      rfl

theorem removeTwo_cons_succ (a : Graph) (l : List Graph) (k j : ℕ) :
    removeTwo (a :: l) (k + 1) (j + 1) = a :: removeTwo l k j := by
  unfold removeTwo
  rw [enumFilter_cons]
  rw [if_pos (by simp)]
  have h1 : (fun p : ℕ × Graph =>
        !decide (p.1 + 1 = k + 1) && !decide (p.1 + 1 = j + 1)) =
      (fun p : ℕ × Graph => !decide (p.1 = k) && !decide (p.1 = j)) := by
    funext p
    have ha : (p.1 + 1 = k + 1) ↔ (p.1 = k) := by omega
    have hb : (p.1 + 1 = j + 1) ↔ (p.1 = j) := by omega
    have hda : decide (p.1 + 1 = k + 1) = decide (p.1 = k) := decide_eq_decide.mpr ha
    have hdb : decide (p.1 + 1 = j + 1) = decide (p.1 = j) := decide_eq_decide.mpr hb
    rw [hda, hdb]
  rw [h1]
  rfl

theorem removeTwo_cons_zero_succ (a : Graph) (l : List Graph) (j : ℕ) :
    removeTwo (a :: l) 0 (j + 1) = l.eraseIdx j := by
  unfold removeTwo
  rw [enumFilter_cons]
  rw [if_neg (by simp)]
  have h1 : (fun p : ℕ × Graph =>
        !decide (p.1 + 1 = 0) && !decide (p.1 + 1 = j + 1)) =
      (fun p : ℕ × Graph => !decide (p.1 = j)) := by
    funext p
    have hb : (p.1 + 1 = j + 1) ↔ (p.1 = j) := by omega
    have hdb : decide (p.1 + 1 = j + 1) = decide (p.1 = j) := decide_eq_decide.mpr hb
    rw [hdb]
    simp
  rw [h1, eraseOne_eq]
  rfl

theorem removeTwo_eq_of_lt :
    ∀ (l : List Graph) (i1 i2 : ℕ), i1 < i2 →
      removeTwo l i1 i2 = (l.eraseIdx i2).eraseIdx i1
  | [], _, _, _ => by
    unfold removeTwo
    rfl
  | a :: l, 0, i2, h => by
    cases i2 with
    | zero => exact absurd h (Nat.lt_irrefl 0)
    | succ j =>
      rw [removeTwo_cons_zero_succ]
      rfl
  | a :: l, k + 1, i2, h => by
    cases i2 with
    | zero => exact absurd h (Nat.not_lt_zero _)
    | succ j =>
      rw [removeTwo_cons_succ, removeTwo_eq_of_lt l k j (by omega)]
      rfl

theorem removeTwo_comm (l : List Graph) (i1 i2 : ℕ) :
    removeTwo l i1 i2 = removeTwo l i2 i1 := by
  unfold removeTwo
  congr 1
  apply List.filter_congr
  intro p _
  rw [Bool.and_comm]

theorem flatMap_map_eq {α β γ : Type} (f : α → List β) (m : β → γ) :
    ∀ l : List α, l.flatMap (fun a => (f a).map m) = (l.flatMap f).map m := by
  intro l
  induction l with
  | nil => rfl
  | cons a l ih => rw [List.flatMap_cons, List.flatMap_cons, List.map_append, ih]

theorem flatMap_eraseIdx_perm {α β : Type} (f : α → List β) (l : List α) (p : ℕ)
    (hp : p < l.length) :
    ((l.eraseIdx p).flatMap f ++ f (l.get ⟨p, hp⟩)).Perm (l.flatMap f) := by
  rw [flatMap_eraseIdx, flatMap_decomp f l p hp, List.append_assoc]
  exact List.Perm.append_left _ List.perm_append_comm

theorem removeTwo_flatMap_perm_lt {β : Type} (f : Graph → List β) (l : List Graph)
    (i1 i2 : ℕ) (h1 : i1 < l.length) (h2 : i2 < l.length) (hlt : i1 < i2) :
    ((removeTwo l i1 i2).flatMap f ++
      (f (l.get ⟨i1, h1⟩) ++ f (l.get ⟨i2, h2⟩))).Perm (l.flatMap f) := by
  rw [removeTwo_eq_of_lt l i1 i2 hlt]
  have hlen2 : i1 < (l.eraseIdx i2).length := by
    rw [List.length_eraseIdx]
    split_ifs <;> omega
  have hget : (l.eraseIdx i2).get ⟨i1, hlen2⟩ = l.get ⟨i1, h1⟩ := by
    have h3 := List.getElem_eraseIdx l i2 i1 hlen2
    rw [dif_pos hlt] at h3
    exact h3
  have e1 := flatMap_eraseIdx_perm f (l.eraseIdx i2) i1 hlen2
  rw [hget] at e1
  have e2 := flatMap_eraseIdx_perm f l i2 h2
  rw [← List.append_assoc]
  exact ((List.perm_append_right_iff _).mpr e1).trans e2

theorem removeTwo_flatMap_perm {β : Type} (f : Graph → List β) (l : List Graph)
    (i1 i2 : ℕ) (h1 : i1 < l.length) (h2 : i2 < l.length) (hne : i1 ≠ i2) :
    ((removeTwo l i1 i2).flatMap f ++
      (f (l.get ⟨i1, h1⟩) ++ f (l.get ⟨i2, h2⟩))).Perm (l.flatMap f) := by
  rcases Nat.lt_or_ge i1 i2 with hlt | hge
  · exact removeTwo_flatMap_perm_lt f l i1 i2 h1 h2 hlt
  · have hlt : i2 < i1 := by omega
    rw [removeTwo_comm]
    refine List.Perm.trans ?_ (removeTwo_flatMap_perm_lt f l i2 i1 h2 h1 hlt)
    exact List.Perm.append_left _ List.perm_append_comm

theorem mem_removeTwo {l : List Graph} {i1 i2 : ℕ} {c : Graph}
    (h : c ∈ removeTwo l i1 i2) :
    ∃ k, k ≠ i1 ∧ k ≠ i2 ∧ ∃ hk : k < l.length, l.get ⟨k, hk⟩ = c := by
  unfold removeTwo at h
  obtain ⟨p, hp, hsnd⟩ := List.mem_map.mp h
  obtain ⟨henum, hcond⟩ := List.mem_filter.mp hp
  simp only [Bool.and_eq_true, Bool.not_eq_true', decide_eq_false_iff_not] at hcond
  obtain ⟨k, a⟩ := p
  rw [List.mk_mem_enum_iff_getElem?] at henum
  have hk : k < l.length := by
    by_contra hge
    rw [List.getElem?_eq_none (by omega)] at henum
    cases henum
  refine ⟨k, hcond.1, hcond.2, hk, ?_⟩
  rw [List.getElem?_eq_getElem hk] at henum
  exact (Option.some.inj henum).trans hsnd

theorem get_mem_drop {α : Type} (l : List α) (i k : ℕ) (hk : k < l.length) (hik : i ≤ k) :
    l.get ⟨k, hk⟩ ∈ l.drop i := by
  have hsum : i + (k - i) < l.length := by omega
  have h3 := List.get_drop l hsum
  have h4 : l.get ⟨k, hk⟩ = l.get ⟨i + (k - i), hsum⟩ := by
    congr 1
    exact Fin.ext (show k = i + (k - i) by omega)
  rw [h4, h3]
  exact List.get_mem _ _ _

theorem nodup_flatMap_disjoint_pos {α β : Type} (f : α → List β) (l : List α)
    (hnd : (l.flatMap f).Nodup) {k1 k2 : ℕ} (h1 : k1 < l.length) (h2 : k2 < l.length)
    (hlt : k1 < k2) {x : β} (hx1 : x ∈ f (l.get ⟨k1, h1⟩)) (hx2 : x ∈ f (l.get ⟨k2, h2⟩)) :
    False := by
  rw [flatMap_decomp f l k1 h1] at hnd
  obtain ⟨_, hnd2, _⟩ := List.nodup_append.mp hnd
  obtain ⟨_, _, hdisj⟩ := List.nodup_append.mp hnd2
  refine hdisj hx1 (List.mem_flatMap.mpr ⟨l.get ⟨k2, h2⟩, ?_, hx2⟩)
  exact get_mem_drop l (k1 + 1) k2 h2 (by omega)

theorem nodup_flatMap_disjoint_ne {α β : Type} (f : α → List β) (l : List α)
    (hnd : (l.flatMap f).Nodup) {k1 k2 : ℕ} (h1 : k1 < l.length) (h2 : k2 < l.length)
    (hne : k1 ≠ k2) {x : β} (hx1 : x ∈ f (l.get ⟨k1, h1⟩)) (hx2 : x ∈ f (l.get ⟨k2, h2⟩)) :
    False := by
  rcases Nat.lt_or_ge k1 k2 with h | h
  · exact nodup_flatMap_disjoint_pos f l hnd h1 h2 h hx1 hx2
  · exact nodup_flatMap_disjoint_pos f l hnd h2 h1 (by omega) hx2 hx1

theorem rewireEdge_cases (n2 n1 : ℕ) (e : Edge) :
    (rewireEdge n2 n1 e = e ∧ ¬incident n2 e) ∨
    (e.src = n2 ∧ rewireEdge n2 n1 e = { e with src := n1 }) ∨
    (e.src ≠ n2 ∧ e.dst = n2 ∧ rewireEdge n2 n1 e = { e with dst := n1 }) := by
  unfold rewireEdge
  by_cases hinc : incident n2 e
  · rw [if_pos hinc]
    by_cases hs : e.src = n2
    · rw [if_pos hs]
      exact Or.inr (Or.inl ⟨hs, rfl⟩)
    · rw [if_neg hs]
      refine Or.inr (Or.inr ⟨hs, ?_, rfl⟩)
      rcases hinc with h | h
      · exact absurd h hs
      · exact h
  · rw [if_neg hinc]
    exact Or.inl ⟨rfl, hinc⟩

theorem adjE_map_rewire {es : List Edge} {n1 n2 : ℕ}
    (hns : ∀ e ∈ es, e.src ≠ e.dst) {m c : ℕ} (h : adjE es m c) :
    adjE (es.map (rewireEdge n2 n1))
      (if m = n2 then n1 else m) (if c = n2 then n1 else c) := by
  obtain ⟨e, he, hor⟩ := h
  refine ⟨rewireEdge n2 n1 e, List.mem_map_of_mem _ he, ?_⟩
  have hnse := hns e he
  rcases rewireEdge_cases n2 n1 e with ⟨heq, hni⟩ | ⟨hs, heq⟩ | ⟨hs, hd, heq⟩
  · rw [heq]
    have hsn : e.src ≠ n2 := fun h => hni (Or.inl h)
    have hdn : e.dst ≠ n2 := fun h => hni (Or.inr h)
    rcases hor with ⟨ha, hb⟩ | ⟨ha, hb⟩
    · rw [if_neg (ha ▸ hsn), if_neg (hb ▸ hdn)]
      exact Or.inl ⟨ha, hb⟩
    · rw [if_neg (hb ▸ hdn), if_neg (ha ▸ hsn)]
      exact Or.inr ⟨ha, hb⟩
  · rw [heq]
    have hdn : e.dst ≠ n2 := fun h => hnse (hs.trans h.symm)
    rcases hor with ⟨ha, hb⟩ | ⟨ha, hb⟩
    · have hm : m = n2 := ha.symm.trans hs
      rw [if_pos hm, if_neg (hb ▸ hdn)]
      exact Or.inl ⟨rfl, hb⟩
    · have hc : c = n2 := ha.symm.trans hs
      rw [if_neg (hb ▸ hdn), if_pos hc]
      exact Or.inr ⟨rfl, hb⟩
  · rw [heq]
    rcases hor with ⟨ha, hb⟩ | ⟨ha, hb⟩
    · have hc : c = n2 := hb.symm.trans hd
      rw [if_neg (ha ▸ hs), if_pos hc]
      exact Or.inl ⟨ha, rfl⟩
    · have hm : m = n2 := hb.symm.trans hd
      rw [if_pos hm, if_neg (ha ▸ hs)]
      exact Or.inr ⟨ha, rfl⟩

theorem reaches_map_rewire {es : List Edge} {n1 n2 : ℕ}
    (hns : ∀ e ∈ es, e.src ≠ e.dst) {a b : ℕ} (h : Reaches es a b) :
    Reaches (es.map (rewireEdge n2 n1))
      (if a = n2 then n1 else a) (if b = n2 then n1 else b) := by
  induction h with
  | refl => exact Relation.ReflTransGen.refl
  | tail h1 h2 ih => exact Relation.ReflTransGen.tail ih (adjE_map_rewire hns h2)

theorem rewire_endpoint_set {es : List Edge} {n1 n2 : ℕ} {S : List ℕ}
    (hint : ∀ e ∈ es, e.src ∈ S ∧ e.dst ∈ S) :
    ∀ f ∈ es.map (rewireEdge n2 n1),
      (f.src ∈ S ∨ f.src = n1) ∧ (f.dst ∈ S ∨ f.dst = n1) := by
  intro f hf
  obtain ⟨e, he, rfl⟩ := List.mem_map.mp hf
  have hi := hint e he
  rcases rewireEdge_cases n2 n1 e with ⟨heq, _⟩ | ⟨_, heq⟩ | ⟨_, _, heq⟩ <;> rw [heq]
  · exact ⟨Or.inl hi.1, Or.inl hi.2⟩
  · exact ⟨Or.inr rfl, Or.inl hi.2⟩
  · exact ⟨Or.inl hi.1, Or.inr rfl⟩

theorem rewire_noself {es : List Edge} {n1 n2 : ℕ} {S : List ℕ}
    (hint : ∀ e ∈ es, e.src ∈ S ∧ e.dst ∈ S)
    (hns : ∀ e ∈ es, e.src ≠ e.dst) (hn1 : n1 ∉ S) :
    ∀ f ∈ es.map (rewireEdge n2 n1), f.src ≠ f.dst := by
  intro f hf
  obtain ⟨e, he, rfl⟩ := List.mem_map.mp hf
  have hi := hint e he
  have hn := hns e he
  rcases rewireEdge_cases n2 n1 e with ⟨heq, _⟩ | ⟨_, heq⟩ | ⟨_, _, heq⟩ <;> rw [heq]
  · exact hn
  · show n1 ≠ e.dst
    exact fun h => hn1 (h.symm ▸ hi.2)
  · show e.src ≠ n1
    exact fun h => hn1 (h ▸ hi.1)

theorem connects_endpoints {e : Edge} {n1a n1b : ℕ} (hne : n1a ≠ n1b)
    (h : connects n1a n1b e) :
    (e.src = n1a ∧ e.dst = n1b) ∨ (e.src = n1b ∧ e.dst = n1a) := by
  obtain ⟨hinc, hor⟩ := h
  rcases hinc with h1 | h1 <;> rcases hor with h2 | h2
  · exact absurd (h1.symm.trans h2) hne
  · exact Or.inl ⟨h1, h2⟩
  · exact Or.inr ⟨h2, h1⟩
  · exact absurd (h1.symm.trans h2) hne

theorem removeSecond_cover (p : Edge → Bool) :
    ∀ (es : List Edge) (seen : Bool),
      (∀ e ∈ removeSecond p es seen, e ∈ es) ∧
      (∀ e ∈ es, e ∈ removeSecond p es seen ∨
        (p e = true ∧ (seen = true ∨ ∃ f ∈ removeSecond p es seen, p f = true)))
  | [], seen =>
    ⟨fun e he => absurd he (List.not_mem_nil e),
     fun e he => absurd he (List.not_mem_nil e)⟩
  | e :: es, seen => by
    obtain ⟨iha, ihb⟩ := removeSecond_cover p es true
    obtain ⟨ihc, ihd⟩ := removeSecond_cover p es seen
    unfold removeSecond
    by_cases hp : p e = true
    · cases seen with
      | true =>
        rw [if_pos hp, if_pos rfl]
        refine ⟨fun f hf => List.mem_cons_of_mem e hf, ?_⟩
        intro f hf
        rcases List.mem_cons.mp hf with rfl | hf'
        · exact Or.inr ⟨hp, Or.inl rfl⟩
        · exact Or.inl hf'
      | false =>
        rw [if_pos hp, if_neg (by simp)]
        constructor
        · intro f hf
          rcases List.mem_cons.mp hf with rfl | hf'
          · exact List.mem_cons_self f es
          · exact List.mem_cons_of_mem e (iha f hf')
        · intro f hf
          rcases List.mem_cons.mp hf with rfl | hf'
          · exact Or.inl (List.mem_cons_self f _)
          · rcases ihb f hf' with h | ⟨hpf, _⟩
            · exact Or.inl (List.mem_cons_of_mem e h)
            · exact Or.inr ⟨hpf, Or.inr ⟨e, List.mem_cons_self e _, hp⟩⟩
    · rw [if_neg hp]
      constructor
      · intro f hf
        rcases List.mem_cons.mp hf with rfl | hf'
        · exact List.mem_cons_self f es
        · exact List.mem_cons_of_mem e (ihc f hf')
      · intro f hf
        rcases List.mem_cons.mp hf with rfl | hf'
        · exact Or.inl (List.mem_cons_self f _)
        · rcases ihd f hf' with h | ⟨hpf, hrest⟩
          · exact Or.inl (List.mem_cons_of_mem e h)
          · refine Or.inr ⟨hpf, ?_⟩
            rcases hrest with h | ⟨f2, hf2, hpf2⟩
            · exact Or.inl h
            · exact Or.inr ⟨f2, List.mem_cons_of_mem e hf2, hpf2⟩

theorem reaches_removeSecond {es : List Edge} {n1a n1b : ℕ} (hne : n1a ≠ n1b)
    {a b : ℕ} (h : Reaches es a b) :
    Reaches (removeSecond (fun e => decide (connects n1a n1b e)) es false) a b := by
  induction h with
  | refl => exact Relation.ReflTransGen.refl
  | tail h1 h2 ih =>
    refine Relation.ReflTransGen.tail ih ?_
    obtain ⟨e, he, hor⟩ := h2
    obtain ⟨_, hcov⟩ := removeSecond_cover (fun e => decide (connects n1a n1b e)) es false
    rcases hcov e he with hin | ⟨hpe, hrest⟩
    · exact ⟨e, hin, hor⟩
    · rcases hrest with h | ⟨f, hf, hpf⟩
      · cases h
      · have hce : connects n1a n1b e := by simpa using hpe
        have hcf : connects n1a n1b f := by simpa using hpf
        refine ⟨f, hf, ?_⟩
        rcases connects_endpoints hne hce with ⟨hs, hd⟩ | ⟨hs, hd⟩ <;>
          rcases connects_endpoints hne hcf with ⟨hs2, hd2⟩ | ⟨hs2, hd2⟩ <;>
          rcases hor with ⟨ha, hb⟩ | ⟨ha, hb⟩ <;>
          omega

theorem map_rewire_id {es : List Edge} {n1 n2 : ℕ} (h : ∀ e ∈ es, ¬incident n2 e) :
    es.map (rewireEdge n2 n1) = es := by
  induction es with
  | nil => rfl
  | cons e es ih =>
    rw [List.map_cons, ih (fun f hf => h f (List.mem_cons_of_mem e hf))]
    congr 1
    unfold rewireEdge
    rw [if_neg (h e (List.mem_cons_self e es))]

theorem rewire_no_n2 {es : List Edge} {n1 n2 : ℕ} (hns : ∀ e ∈ es, e.src ≠ e.dst)
    (hn12 : n1 ≠ n2) : ∀ f ∈ es.map (rewireEdge n2 n1), ¬incident n2 f := by
  intro f hf hinc
  obtain ⟨e, he, rfl⟩ := List.mem_map.mp hf
  rcases rewireEdge_cases n2 n1 e with ⟨heq, hni⟩ | ⟨hs, heq⟩ | ⟨hsne, hd, heq⟩
  · rw [heq] at hinc
    exact hni hinc
  · rw [heq] at hinc
    rcases hinc with h | h
    · exact hn12 h
    · exact hns e he (hs.trans h.symm)
  · rw [heq] at hinc
    rcases hinc with h | h
    · exact hsne h
    · exact hn12 h

theorem WF_joinTwo_core {sc : Scene} {n1 n2 : ℕ} {i1 i2 : ℕ} {rewired : List Graph}
    (hw : WF sc)
    (hf1 : findRootParent sc n1 = some i1) (hf2 : findRootParent sc n2 = some i2)
    (hne : i1 ≠ i2)
    (hrw : rewired = sc.graphs.map (fun g =>
      { g with edges := g.edges.map (rewireEdge n2 n1) })) :
    WF (⟨removeTwo rewired i1 i2 ++
      [⟨((rewired.getD i1 default).nodes ++ (rewired.getD i2 default).nodes).erase n2,
        (rewired.getD i1 default).edges ++ (rewired.getD i2 default).edges⟩]⟩ : Scene) := by
  rw [WF_iff] at hw ⊢
  obtain ⟨hsw, hconn⟩ := hw
  obtain ⟨hp1, hq1⟩ := findIdx?_some_spec (show sc.graphs.findIdx?
    (fun g => decide (n1 ∈ g.nodes)) = some i1 from hf1)
  obtain ⟨hp2, hq2⟩ := findIdx?_some_spec (show sc.graphs.findIdx?
    (fun g => decide (n2 ∈ g.nodes)) = some i2 from hf2)
  have hn1g : n1 ∈ (sc.graphs.get ⟨i1, hp1⟩).nodes := by simpa using hq1
  have hn2g : n2 ∈ (sc.graphs.get ⟨i2, hp2⟩).nodes := by simpa using hq2
  have hndf : (sc.graphs.flatMap Graph.nodes).Nodup := hsw.1
  have hgetmem : ∀ (k : ℕ) (hk : k < sc.graphs.length),
      sc.graphs.get ⟨k, hk⟩ ∈ sc.graphs := fun k hk => List.get_mem _ _ _
  have hn12 : n1 ≠ n2 := by
    intro h
    exact nodup_flatMap_disjoint_ne Graph.nodes sc.graphs hndf hp1 hp2 hne hn1g
      (h.symm ▸ hn2g)
  have hNoInc : ∀ (k : ℕ) (hk : k < sc.graphs.length), k ≠ i2 →
      ∀ e ∈ (sc.graphs.get ⟨k, hk⟩).edges, ¬incident n2 e := by
    intro k hk hki2 e he hinc
    have hint := hsw.2.1 _ (hgetmem k hk) e he
    have hn2k : n2 ∈ (sc.graphs.get ⟨k, hk⟩).nodes := by
      rcases hinc with h | h
      · exact h ▸ hint.1
      · exact h ▸ hint.2
    exact nodup_flatMap_disjoint_ne Graph.nodes sc.graphs hndf hk hp2 hki2 hn2k hn2g
  have hn1ni2 : n1 ∉ (sc.graphs.get ⟨i2, hp2⟩).nodes := fun h =>
    nodup_flatMap_disjoint_ne Graph.nodes sc.graphs hndf hp1 hp2 hne hn1g h
  have hlenr : rewired.length = sc.graphs.length := by rw [hrw, List.length_map]
  have hp1r : i1 < rewired.length := by omega
  have hp2r : i2 < rewired.length := by omega
  have hgd1 : sc.graphs.getD i1 default = sc.graphs.get ⟨i1, hp1⟩ := by
    rw [List.getD_eq_getElem?_getD, List.getElem?_eq_getElem hp1]
    rfl
  have hgd2 : sc.graphs.getD i2 default = sc.graphs.get ⟨i2, hp2⟩ := by
    rw [List.getD_eq_getElem?_getD, List.getElem?_eq_getElem hp2]
    rfl
  have hrgd1 : rewired.getD i1 default = rewired.get ⟨i1, hp1r⟩ := by
    rw [List.getD_eq_getElem?_getD, List.getElem?_eq_getElem hp1r]
    rfl
  have hrgd2 : rewired.getD i2 default = rewired.get ⟨i2, hp2r⟩ := by
    rw [List.getD_eq_getElem?_getD, List.getElem?_eq_getElem hp2r]
    rfl
  have hrg1 : rewired.getD i1 default =
      { sc.graphs.get ⟨i1, hp1⟩ with
        edges := (sc.graphs.get ⟨i1, hp1⟩).edges.map (rewireEdge n2 n1) } := by
    rw [hrw, getD_map_of_lt _ _ _ hp1, hgd1]
  have hrg2 : rewired.getD i2 default =
      { sc.graphs.get ⟨i2, hp2⟩ with
        edges := (sc.graphs.get ⟨i2, hp2⟩).edges.map (rewireEdge n2 n1) } := by
    rw [hrw, getD_map_of_lt _ _ _ hp2, hgd2]
  have hrg1id : rewired.getD i1 default = sc.graphs.get ⟨i1, hp1⟩ := by
    rw [hrg1, map_rewire_id (hNoInc i1 hp1 hne)]
  have hrg1n : (rewired.getD i1 default).nodes = (sc.graphs.get ⟨i1, hp1⟩).nodes := by
    rw [hrg1id]
  have hrg1e : (rewired.getD i1 default).edges = (sc.graphs.get ⟨i1, hp1⟩).edges := by
    rw [hrg1id]
  have hrg2n : (rewired.getD i2 default).nodes = (sc.graphs.get ⟨i2, hp2⟩).nodes := by
    rw [hrg2]
  have hrg2e : (rewired.getD i2 default).edges =
      (sc.graphs.get ⟨i2, hp2⟩).edges.map (rewireEdge n2 n1) := by
    rw [hrg2]
  rw [hrg1n, hrg1e, hrg2n, hrg2e]
  have hkeptc : ∀ c ∈ removeTwo rewired i1 i2, ∃ (k : ℕ) (hk : k < sc.graphs.length),
      k ≠ i1 ∧ k ≠ i2 ∧ c = sc.graphs.get ⟨k, hk⟩ := by
    intro c hc
    obtain ⟨k, hki1, hki2, hklen, hkeq⟩ := mem_removeTwo hc
    have hk : k < sc.graphs.length := by omega
    refine ⟨k, hk, hki1, hki2, ?_⟩
    have e1 : rewired.getD k default = rewired.get ⟨k, hklen⟩ := by
      rw [List.getD_eq_getElem?_getD, List.getElem?_eq_getElem hklen]
      rfl
    have e2 : sc.graphs.getD k default = sc.graphs.get ⟨k, hk⟩ := by
      rw [List.getD_eq_getElem?_getD, List.getElem?_eq_getElem hk]
      rfl
    rw [← hkeq, ← e1, hrw, getD_map_of_lt _ _ _ hk, e2,
      map_rewire_id (hNoInc k hk hki2)]
  have hg1int := hsw.2.1 _ (hgetmem i1 hp1)
  have hg2int := hsw.2.1 _ (hgetmem i2 hp2)
  have hg1ns := hsw.2.2 _ (hgetmem i1 hp1)
  have hg2ns := hsw.2.2 _ (hgetmem i2 hp2)
  have hNo1 := hNoInc i1 hp1 hne
  have hnd12 : ((sc.graphs.get ⟨i1, hp1⟩).nodes ++ (sc.graphs.get ⟨i2, hp2⟩).nodes).Nodup := by
    refine List.Nodup.append ?_ ?_ ?_
    · exact nodup_flatMap_parts hndf _ (hgetmem i1 hp1)
    · exact nodup_flatMap_parts hndf _ (hgetmem i2 hp2)
    · intro a ha hb
      exact nodup_flatMap_disjoint_ne Graph.nodes sc.graphs hndf hp1 hp2 hne ha hb
  have hn2er : n2 ∉
      ((sc.graphs.get ⟨i1, hp1⟩).nodes ++ (sc.graphs.get ⟨i2, hp2⟩).nodes).erase n2 :=
    List.Nodup.not_mem_erase hnd12
  have hrq1 : Graph.nodes (rewired.get ⟨i1, hp1r⟩) = (sc.graphs.get ⟨i1, hp1⟩).nodes := by
    rw [← hrgd1]
    exact hrg1n
  have hrq2 : Graph.nodes (rewired.get ⟨i2, hp2r⟩) = (sc.graphs.get ⟨i2, hp2⟩).nodes := by
    rw [← hrgd2]
    exact hrg2n
  have hpermA : ((removeTwo rewired i1 i2).flatMap Graph.nodes ++
      ((sc.graphs.get ⟨i1, hp1⟩).nodes ++ (sc.graphs.get ⟨i2, hp2⟩).nodes)).Perm
        (sc.graphs.flatMap Graph.nodes) := by
    have h0 := removeTwo_flatMap_perm Graph.nodes rewired i1 i2 hp1r hp2r hne
    rw [hrq1, hrq2] at h0
    refine h0.trans ?_
    rw [hrw, List.flatMap_map]
  have hmemn2 : n2 ∈ (sc.graphs.get ⟨i1, hp1⟩).nodes ++ (sc.graphs.get ⟨i2, hp2⟩).nodes :=
    List.mem_append.mpr (Or.inr hn2g)
  have hperm2 : (((sc.graphs.get ⟨i1, hp1⟩).nodes ++
        (sc.graphs.get ⟨i2, hp2⟩).nodes).erase n2 ++ [n2]).Perm
      ((sc.graphs.get ⟨i1, hp1⟩).nodes ++ (sc.graphs.get ⟨i2, hp2⟩).nodes) :=
    List.Perm.trans List.perm_append_comm (List.perm_cons_erase hmemn2).symm
  have hbig : ((removeTwo rewired i1 i2).flatMap Graph.nodes ++
      ((sc.graphs.get ⟨i1, hp1⟩).nodes ++ (sc.graphs.get ⟨i2, hp2⟩).nodes).erase n2 ++
      [n2]).Perm (sc.graphs.flatMap Graph.nodes) := by
    rw [List.append_assoc]
    exact List.Perm.trans (List.Perm.append_left _ hperm2) hpermA
  have hbignd := (hbig.nodup_iff).mpr hndf
  have hreachn1 : ∀ y ∈ ((sc.graphs.get ⟨i1, hp1⟩).nodes ++
        (sc.graphs.get ⟨i2, hp2⟩).nodes).erase n2,
      Reaches ((sc.graphs.get ⟨i1, hp1⟩).edges ++
        (sc.graphs.get ⟨i2, hp2⟩).edges.map (rewireEdge n2 n1)) y n1 := by
    intro y hy
    have hyne : y ≠ n2 := by
      intro h
      subst h
      exact hn2er hy
    rcases List.mem_append.mp (List.mem_of_mem_erase hy) with h1 | h2
    · exact reaches_mono (fun e he => List.mem_append.mpr (Or.inl he))
        (hconn _ (hgetmem i1 hp1) y h1 (by simp) n1 hn1g (by simp))
    · have hr := hconn _ (hgetmem i2 hp2) y h2 (by simp) n2 hn2g (by simp)
      have hm := @reaches_map_rewire (sc.graphs.get ⟨i2, hp2⟩).edges n1 n2 hg2ns y n2 hr
      rw [if_neg hyne, if_pos rfl] at hm
      exact reaches_mono (fun e he => List.mem_append.mpr (Or.inr he)) hm
  refine ⟨⟨?_, ?_, ?_⟩, ?_⟩
  · -- global node uniqueness
    have hAN : allNodes (⟨removeTwo rewired i1 i2 ++
        [⟨((sc.graphs.get ⟨i1, hp1⟩).nodes ++ (sc.graphs.get ⟨i2, hp2⟩).nodes).erase n2,
          (sc.graphs.get ⟨i1, hp1⟩).edges ++
          (sc.graphs.get ⟨i2, hp2⟩).edges.map (rewireEdge n2 n1)⟩]⟩ : Scene) =
        (removeTwo rewired i1 i2).flatMap Graph.nodes ++
        ((sc.graphs.get ⟨i1, hp1⟩).nodes ++ (sc.graphs.get ⟨i2, hp2⟩).nodes).erase n2 := by
      show ((_ : List Graph) ++ [(_ : Graph)]).flatMap Graph.nodes = _
      rw [List.flatMap_append, List.flatMap_cons, List.flatMap_nil, List.append_nil]
    rw [hAN]
    exact (List.nodup_append.mp hbignd).1
  · -- edges internal
    intro c hc e he
    rcases List.mem_append.mp hc with hcl | hcr
    · obtain ⟨k, hk, _, _, rfl⟩ := hkeptc c hcl
      exact hsw.2.1 _ (hgetmem k hk) e he
    · rw [List.mem_singleton] at hcr
      subst hcr
      rcases List.mem_append.mp he with he1 | he2
      · have hint := hg1int e he1
        have hni := hNo1 e he1
        constructor
        · exact (List.mem_erase_of_ne (fun h => hni (Or.inl h))).mpr
            (List.mem_append.mpr (Or.inl hint.1))
        · exact (List.mem_erase_of_ne (fun h => hni (Or.inr h))).mpr
            (List.mem_append.mpr (Or.inl hint.2))
      · have hend := rewire_endpoint_set hg2int e he2
        have hni := rewire_no_n2 hg2ns hn12 e he2
        constructor
        · rcases hend.1 with h | h
          · exact (List.mem_erase_of_ne (fun hh => hni (Or.inl hh))).mpr
              (List.mem_append.mpr (Or.inr h))
          · exact (List.mem_erase_of_ne (h ▸ hn12)).mpr
              (List.mem_append.mpr (Or.inl (h ▸ hn1g)))
        · rcases hend.2 with h | h
          · exact (List.mem_erase_of_ne (fun hh => hni (Or.inr hh))).mpr
              (List.mem_append.mpr (Or.inr h))
          · exact (List.mem_erase_of_ne (h ▸ hn12)).mpr
              (List.mem_append.mpr (Or.inl (h ▸ hn1g)))
  · -- no self-loops
    intro c hc e he
    rcases List.mem_append.mp hc with hcl | hcr
    · obtain ⟨k, hk, _, _, rfl⟩ := hkeptc c hcl
      exact hsw.2.2 _ (hgetmem k hk) e he
    · rw [List.mem_singleton] at hcr
      subst hcr
      rcases List.mem_append.mp he with he1 | he2
      · exact hg1ns e he1
      · exact rewire_noself hg2int hg2ns hn1ni2 e he2
  · -- connectivity
    intro c hc
    rcases List.mem_append.mp hc with hcl | hcr
    · obtain ⟨k, hk, _, _, rfl⟩ := hkeptc c hcl
      exact hconn _ (hgetmem k hk)
    · rw [List.mem_singleton] at hcr
      subst hcr
      intro a ha _ b hb _
      exact reaches_trans _ (hreachn1 a ha) (reaches_symm _ (hreachn1 b hb))

theorem WF_joinTwo {sc : Scene} (hw : WF sc) (n1 n2 : ℕ) : WF (joinTwo sc n1 n2).1 := by
  unfold joinTwo
  cases hf1 : findRootParent sc n1 with
  | none => exact hw
  | some i1 =>
    cases hf2 : findRootParent sc n2 with
    | none => exact hw
    | some i2 =>
      by_cases hne : i1 ≠ i2
      · show WF ((if i1 ≠ i2 then (_ : Scene × Bool) else _).1)
        rw [if_pos hne]
        exact WF_joinTwo_core hw hf1 hf2 hne rfl
      · show WF ((if i1 ≠ i2 then (_ : Scene × Bool) else _).1)
        rw [if_neg hne]
        exact hw

theorem rewire_no_x {es : List Edge} {n1 n2 x : ℕ} (hx : ∀ e ∈ es, ¬incident x e)
    (hn1x : n1 ≠ x) : ∀ f ∈ es.map (rewireEdge n2 n1), ¬incident x f := by
  intro f hf hinc
  obtain ⟨e, he, rfl⟩ := List.mem_map.mp hf
  rcases rewireEdge_cases n2 n1 e with ⟨heq, _⟩ | ⟨_, heq⟩ | ⟨_, _, heq⟩ <;> rw [heq] at hinc
  · exact hx e he hinc
  · rcases hinc with h | h
    · exact hn1x h
    · exact hx e he (Or.inr h)
  · rcases hinc with h | h
    · exact hx e he (Or.inl h)
    · exact hn1x h

theorem WF_joinFour_core {sc : Scene} {n1a n1b n2a n2b : ℕ} {i1 i2 : ℕ}
    {rewired : List Graph}
    (hw : WF sc)
    (hf1a : findRootParent sc n1a = some i1) (hf1b : findRootParent sc n1b = some i1)
    (hf2a : findRootParent sc n2a = some i2) (hf2b : findRootParent sc n2b = some i2)
    (hne : i1 ≠ i2) (hab : n1a ≠ n1b) (hcd : n2a ≠ n2b)
    (hrw : rewired = sc.graphs.map (fun g =>
      { g with edges := (g.edges.map (rewireEdge n2a n1a)).map (rewireEdge n2b n1b) })) :
    WF (⟨removeTwo rewired i1 i2 ++
      [⟨(((rewired.getD i1 default).nodes ++
          (rewired.getD i2 default).nodes).erase n2a).erase n2b,
        removeSecond (fun e => decide (connects n1a n1b e))
          ((rewired.getD i1 default).edges ++ (rewired.getD i2 default).edges)
          false⟩]⟩ : Scene) := by
  rw [WF_iff] at hw ⊢
  obtain ⟨hsw, hconn⟩ := hw
  obtain ⟨hp1, hq1a⟩ := findIdx?_some_spec (show sc.graphs.findIdx?
    (fun g => decide (n1a ∈ g.nodes)) = some i1 from hf1a)
  obtain ⟨hp1b, hq1b⟩ := findIdx?_some_spec (show sc.graphs.findIdx?
    (fun g => decide (n1b ∈ g.nodes)) = some i1 from hf1b)
  obtain ⟨hp2, hq2a⟩ := findIdx?_some_spec (show sc.graphs.findIdx?
    (fun g => decide (n2a ∈ g.nodes)) = some i2 from hf2a)
  obtain ⟨hp2b, hq2b⟩ := findIdx?_some_spec (show sc.graphs.findIdx?
    (fun g => decide (n2b ∈ g.nodes)) = some i2 from hf2b)
  have hn1aG1 : n1a ∈ (sc.graphs.get ⟨i1, hp1⟩).nodes := by simpa using hq1a
  have hn1bG1 : n1b ∈ (sc.graphs.get ⟨i1, hp1⟩).nodes := by
    have := hq1b
    simp at this
    exact this
  have hn2aG2 : n2a ∈ (sc.graphs.get ⟨i2, hp2⟩).nodes := by simpa using hq2a
  have hn2bG2 : n2b ∈ (sc.graphs.get ⟨i2, hp2⟩).nodes := by
    have := hq2b
    simp at this
    exact this
  have hndf : (sc.graphs.flatMap Graph.nodes).Nodup := hsw.1
  have hgetmem : ∀ (k : ℕ) (hk : k < sc.graphs.length),
      sc.graphs.get ⟨k, hk⟩ ∈ sc.graphs := fun k hk => List.get_mem _ _ _
  have hnotin12 : ∀ x ∈ (sc.graphs.get ⟨i1, hp1⟩).nodes,
      x ∉ (sc.graphs.get ⟨i2, hp2⟩).nodes := fun x hx h =>
    nodup_flatMap_disjoint_ne Graph.nodes sc.graphs hndf hp1 hp2 hne hx h
  have hn1a2 : n1a ∉ (sc.graphs.get ⟨i2, hp2⟩).nodes := hnotin12 n1a hn1aG1
  have hn1b2 : n1b ∉ (sc.graphs.get ⟨i2, hp2⟩).nodes := hnotin12 n1b hn1bG1
  have hn2a1 : n2a ∉ (sc.graphs.get ⟨i1, hp1⟩).nodes := fun h =>
    hnotin12 n2a h hn2aG2
  have hn2b1 : n2b ∉ (sc.graphs.get ⟨i1, hp1⟩).nodes := fun h =>
    hnotin12 n2b h hn2bG2
  have hn1a_n2a : n1a ≠ n2a := fun h => hn1a2 (h.symm ▸ hn2aG2)
  have hn1a_n2b : n1a ≠ n2b := fun h => hn1a2 (h.symm ▸ hn2bG2)
  have hn1b_n2a : n1b ≠ n2a := fun h => hn1b2 (h.symm ▸ hn2aG2)
  have hn1b_n2b : n1b ≠ n2b := fun h => hn1b2 (h.symm ▸ hn2bG2)
  have hNoInc : ∀ (x : ℕ), x ∈ (sc.graphs.get ⟨i2, hp2⟩).nodes →
      ∀ (k : ℕ) (hk : k < sc.graphs.length), k ≠ i2 →
      ∀ e ∈ (sc.graphs.get ⟨k, hk⟩).edges, ¬incident x e := by
    intro x hx k hk hki2 e he hinc
    have hint := hsw.2.1 _ (hgetmem k hk) e he
    have hxk : x ∈ (sc.graphs.get ⟨k, hk⟩).nodes := by
      rcases hinc with h | h
      · exact h ▸ hint.1
      · exact h ▸ hint.2
    exact nodup_flatMap_disjoint_ne Graph.nodes sc.graphs hndf hk hp2 hki2 hxk hx
  have hlenr : rewired.length = sc.graphs.length := by rw [hrw, List.length_map]
  have hp1r : i1 < rewired.length := by omega
  have hp2r : i2 < rewired.length := by omega
  have hgd1 : sc.graphs.getD i1 default = sc.graphs.get ⟨i1, hp1⟩ := by
    rw [List.getD_eq_getElem?_getD, List.getElem?_eq_getElem hp1]
    rfl
  have hgd2 : sc.graphs.getD i2 default = sc.graphs.get ⟨i2, hp2⟩ := by
    rw [List.getD_eq_getElem?_getD, List.getElem?_eq_getElem hp2]
    rfl
  have hrgd1 : rewired.getD i1 default = rewired.get ⟨i1, hp1r⟩ := by
    rw [List.getD_eq_getElem?_getD, List.getElem?_eq_getElem hp1r]
    rfl
  have hrgd2 : rewired.getD i2 default = rewired.get ⟨i2, hp2r⟩ := by
    rw [List.getD_eq_getElem?_getD, List.getElem?_eq_getElem hp2r]
    rfl
  have hrg1id : rewired.getD i1 default = sc.graphs.get ⟨i1, hp1⟩ := by
    rw [hrw, getD_map_of_lt _ _ _ hp1, hgd1,
      map_rewire_id (fun e he hinc => hNoInc n2a hn2aG2 i1 hp1 hne e he hinc),
      map_rewire_id (fun e he hinc => hNoInc n2b hn2bG2 i1 hp1 hne e he hinc)]
  have hrg2 : rewired.getD i2 default =
      { sc.graphs.get ⟨i2, hp2⟩ with
        edges := ((sc.graphs.get ⟨i2, hp2⟩).edges.map
          (rewireEdge n2a n1a)).map (rewireEdge n2b n1b) } := by
    rw [hrw, getD_map_of_lt _ _ _ hp2, hgd2]
  have hrg1n : (rewired.getD i1 default).nodes = (sc.graphs.get ⟨i1, hp1⟩).nodes := by
    rw [hrg1id]
  have hrg1e : (rewired.getD i1 default).edges = (sc.graphs.get ⟨i1, hp1⟩).edges := by
    rw [hrg1id]
  have hrg2n : (rewired.getD i2 default).nodes = (sc.graphs.get ⟨i2, hp2⟩).nodes := by
    rw [hrg2]
  have hrg2e : (rewired.getD i2 default).edges =
      ((sc.graphs.get ⟨i2, hp2⟩).edges.map (rewireEdge n2a n1a)).map
        (rewireEdge n2b n1b) := by
    rw [hrg2]
  rw [hrg1n, hrg1e, hrg2n, hrg2e]
  have hkeptc : ∀ c ∈ removeTwo rewired i1 i2, ∃ (k : ℕ) (hk : k < sc.graphs.length),
      k ≠ i1 ∧ k ≠ i2 ∧ c = sc.graphs.get ⟨k, hk⟩ := by
    intro c hc
    obtain ⟨k, hki1, hki2, hklen, hkeq⟩ := mem_removeTwo hc
    have hk : k < sc.graphs.length := by omega
    refine ⟨k, hk, hki1, hki2, ?_⟩
    have e1 : rewired.getD k default = rewired.get ⟨k, hklen⟩ := by
      rw [List.getD_eq_getElem?_getD, List.getElem?_eq_getElem hklen]
      rfl
    have e2 : sc.graphs.getD k default = sc.graphs.get ⟨k, hk⟩ := by
      rw [List.getD_eq_getElem?_getD, List.getElem?_eq_getElem hk]
      rfl
    rw [← hkeq, ← e1, hrw, getD_map_of_lt _ _ _ hk, e2,
      map_rewire_id (fun e he hinc => hNoInc n2a hn2aG2 k hk hki2 e he hinc),
      map_rewire_id (fun e he hinc => hNoInc n2b hn2bG2 k hk hki2 e he hinc)]
  have hg1int := hsw.2.1 _ (hgetmem i1 hp1)
  have hg2int := hsw.2.1 _ (hgetmem i2 hp2)
  have hg1ns := hsw.2.2 _ (hgetmem i1 hp1)
  have hg2ns := hsw.2.2 _ (hgetmem i2 hp2)
  have hint1 : ∀ f ∈ (sc.graphs.get ⟨i2, hp2⟩).edges.map (rewireEdge n2a n1a),
      f.src ∈ n1a :: (sc.graphs.get ⟨i2, hp2⟩).nodes ∧
      f.dst ∈ n1a :: (sc.graphs.get ⟨i2, hp2⟩).nodes := by
    intro f hf
    have h := rewire_endpoint_set hg2int f hf
    constructor
    · rcases h.1 with h1 | h1
      · exact List.mem_cons_of_mem _ h1
      · exact h1 ▸ List.mem_cons_self _ _
    · rcases h.2 with h1 | h1
      · exact List.mem_cons_of_mem _ h1
      · exact h1 ▸ List.mem_cons_self _ _
  have hns1 : ∀ f ∈ (sc.graphs.get ⟨i2, hp2⟩).edges.map (rewireEdge n2a n1a),
      f.src ≠ f.dst := rewire_noself hg2int hg2ns hn1a2
  have hn1bS : n1b ∉ n1a :: (sc.graphs.get ⟨i2, hp2⟩).nodes := by
    intro h
    rcases List.mem_cons.mp h with h1 | h1
    · exact hab h1.symm
    · exact hn1b2 h1
  have hns2 : ∀ f ∈ ((sc.graphs.get ⟨i2, hp2⟩).edges.map (rewireEdge n2a n1a)).map
      (rewireEdge n2b n1b), f.src ≠ f.dst := rewire_noself hint1 hns1 hn1bS
  have hend2 := @rewire_endpoint_set
    ((sc.graphs.get ⟨i2, hp2⟩).edges.map (rewireEdge n2a n1a)) n1b n2b
    (n1a :: (sc.graphs.get ⟨i2, hp2⟩).nodes) hint1
  have hNoA : ∀ f ∈ ((sc.graphs.get ⟨i2, hp2⟩).edges.map (rewireEdge n2a n1a)).map
      (rewireEdge n2b n1b), ¬incident n2a f :=
    rewire_no_x (rewire_no_n2 hg2ns hn1a_n2a) hn1b_n2a
  have hNoB : ∀ f ∈ ((sc.graphs.get ⟨i2, hp2⟩).edges.map (rewireEdge n2a n1a)).map
      (rewireEdge n2b n1b), ¬incident n2b f := rewire_no_n2 hns1 hn1b_n2b
  have hnd12 : ((sc.graphs.get ⟨i1, hp1⟩).nodes ++
      (sc.graphs.get ⟨i2, hp2⟩).nodes).Nodup := by
    refine List.Nodup.append ?_ ?_ ?_
    · exact nodup_flatMap_parts hndf _ (hgetmem i1 hp1)
    · exact nodup_flatMap_parts hndf _ (hgetmem i2 hp2)
    · intro a ha hb
      exact nodup_flatMap_disjoint_ne Graph.nodes sc.graphs hndf hp1 hp2 hne ha hb
  have hndE : (((sc.graphs.get ⟨i1, hp1⟩).nodes ++
      (sc.graphs.get ⟨i2, hp2⟩).nodes).erase n2a).Nodup :=
    (List.erase_sublist _ _).nodup hnd12
  have hn2aer : n2a ∉ ((sc.graphs.get ⟨i1, hp1⟩).nodes ++
      (sc.graphs.get ⟨i2, hp2⟩).nodes).erase n2a := List.Nodup.not_mem_erase hnd12
  have hn2ber : n2b ∉ (((sc.graphs.get ⟨i1, hp1⟩).nodes ++
      (sc.graphs.get ⟨i2, hp2⟩).nodes).erase n2a).erase n2b :=
    List.Nodup.not_mem_erase hndE
  have hmemNR : ∀ v, (v ∈ (sc.graphs.get ⟨i1, hp1⟩).nodes ∨
        v ∈ (sc.graphs.get ⟨i2, hp2⟩).nodes) → v ≠ n2a → v ≠ n2b →
      v ∈ (((sc.graphs.get ⟨i1, hp1⟩).nodes ++
        (sc.graphs.get ⟨i2, hp2⟩).nodes).erase n2a).erase n2b := by
    intro v hv ha hb
    refine (List.mem_erase_of_ne hb).mpr ((List.mem_erase_of_ne ha).mpr ?_)
    rcases hv with h | h
    · exact List.mem_append.mpr (Or.inl h)
    · exact List.mem_append.mpr (Or.inr h)
  have hmemNRrev : ∀ v, v ∈ (((sc.graphs.get ⟨i1, hp1⟩).nodes ++
        (sc.graphs.get ⟨i2, hp2⟩).nodes).erase n2a).erase n2b →
      (v ∈ (sc.graphs.get ⟨i1, hp1⟩).nodes ∨ v ∈ (sc.graphs.get ⟨i2, hp2⟩).nodes) ∧
        v ≠ n2a ∧ v ≠ n2b := by
    intro v hv
    have hva : v ≠ n2a := by
      intro h
      subst h
      exact hn2aer (List.mem_of_mem_erase hv)
    have hvb : v ≠ n2b := by
      intro h
      subst h
      exact hn2ber hv
    exact ⟨List.mem_append.mp (List.mem_of_mem_erase (List.mem_of_mem_erase hv)),
      hva, hvb⟩
  obtain ⟨hcov1, _⟩ := removeSecond_cover (fun e => decide (connects n1a n1b e))
    ((sc.graphs.get ⟨i1, hp1⟩).edges ++
      ((sc.graphs.get ⟨i2, hp2⟩).edges.map (rewireEdge n2a n1a)).map
        (rewireEdge n2b n1b)) false
  have hreachn1 : ∀ y ∈ (((sc.graphs.get ⟨i1, hp1⟩).nodes ++
        (sc.graphs.get ⟨i2, hp2⟩).nodes).erase n2a).erase n2b,
      Reaches (removeSecond (fun e => decide (connects n1a n1b e))
        ((sc.graphs.get ⟨i1, hp1⟩).edges ++
          ((sc.graphs.get ⟨i2, hp2⟩).edges.map (rewireEdge n2a n1a)).map
            (rewireEdge n2b n1b)) false) y n1a := by
    intro y hy
    obtain ⟨hyor, hya, hyb⟩ := hmemNRrev y hy
    refine reaches_removeSecond hab ?_
    rcases hyor with h1 | h2
    · exact reaches_mono (fun e he => List.mem_append.mpr (Or.inl he))
        (hconn _ (hgetmem i1 hp1) y h1 (by simp) n1a hn1aG1 (by simp))
    · have hr := hconn _ (hgetmem i2 hp2) y h2 (by simp) n2a hn2aG2 (by simp)
      have hm1 := @reaches_map_rewire (sc.graphs.get ⟨i2, hp2⟩).edges n1a n2a
        hg2ns y n2a hr
      rw [if_neg hya, if_pos rfl] at hm1
      have hm2 := @reaches_map_rewire ((sc.graphs.get ⟨i2, hp2⟩).edges.map
        (rewireEdge n2a n1a)) n1b n2b hns1 y n1a hm1
      rw [if_neg hyb, if_neg hn1a_n2b] at hm2
      exact reaches_mono (fun e he => List.mem_append.mpr (Or.inr he)) hm2
  have hrq1 : Graph.nodes (rewired.get ⟨i1, hp1r⟩) =
      (sc.graphs.get ⟨i1, hp1⟩).nodes := by
    rw [← hrgd1]
    exact hrg1n
  have hrq2 : Graph.nodes (rewired.get ⟨i2, hp2r⟩) =
      (sc.graphs.get ⟨i2, hp2⟩).nodes := by
    rw [← hrgd2]
    exact hrg2n
  have hpermA : ((removeTwo rewired i1 i2).flatMap Graph.nodes ++
      ((sc.graphs.get ⟨i1, hp1⟩).nodes ++ (sc.graphs.get ⟨i2, hp2⟩).nodes)).Perm
        (sc.graphs.flatMap Graph.nodes) := by
    have h0 := removeTwo_flatMap_perm Graph.nodes rewired i1 i2 hp1r hp2r hne
    rw [hrq1, hrq2] at h0
    refine h0.trans ?_
    rw [hrw, List.flatMap_map]
  have hmema : n2a ∈ (sc.graphs.get ⟨i1, hp1⟩).nodes ++
      (sc.graphs.get ⟨i2, hp2⟩).nodes := List.mem_append.mpr (Or.inr hn2aG2)
  have hmemb : n2b ∈ ((sc.graphs.get ⟨i1, hp1⟩).nodes ++
      (sc.graphs.get ⟨i2, hp2⟩).nodes).erase n2a :=
    (List.mem_erase_of_ne (Ne.symm hcd)).mpr (List.mem_append.mpr (Or.inr hn2bG2))
  have hpermb : ((((sc.graphs.get ⟨i1, hp1⟩).nodes ++
        (sc.graphs.get ⟨i2, hp2⟩).nodes).erase n2a).erase n2b ++ [n2b]).Perm
      (((sc.graphs.get ⟨i1, hp1⟩).nodes ++
        (sc.graphs.get ⟨i2, hp2⟩).nodes).erase n2a) :=
    List.Perm.trans List.perm_append_comm (List.perm_cons_erase hmemb).symm
  have hperma : ((((sc.graphs.get ⟨i1, hp1⟩).nodes ++
        (sc.graphs.get ⟨i2, hp2⟩).nodes).erase n2a) ++ [n2a]).Perm
      ((sc.graphs.get ⟨i1, hp1⟩).nodes ++ (sc.graphs.get ⟨i2, hp2⟩).nodes) :=
    List.Perm.trans List.perm_append_comm (List.perm_cons_erase hmema).symm
  have hpermba : (((((sc.graphs.get ⟨i1, hp1⟩).nodes ++
        (sc.graphs.get ⟨i2, hp2⟩).nodes).erase n2a).erase n2b ++ [n2b]) ++ [n2a]).Perm
      ((sc.graphs.get ⟨i1, hp1⟩).nodes ++ (sc.graphs.get ⟨i2, hp2⟩).nodes) :=
    ((List.perm_append_right_iff _).mpr hpermb).trans hperma
  have hbig : ((removeTwo rewired i1 i2).flatMap Graph.nodes ++
      ((((sc.graphs.get ⟨i1, hp1⟩).nodes ++
        (sc.graphs.get ⟨i2, hp2⟩).nodes).erase n2a).erase n2b ++
        ([n2b] ++ [n2a]))).Perm (sc.graphs.flatMap Graph.nodes) := by
    refine List.Perm.trans (List.Perm.append_left _ ?_) hpermA
    rw [← List.append_assoc]
    exact hpermba
  have hbignd := (hbig.nodup_iff).mpr hndf
  rw [← List.append_assoc] at hbignd
  refine ⟨⟨?_, ?_, ?_⟩, ?_⟩
  · have hAN : allNodes (⟨removeTwo rewired i1 i2 ++
        [⟨(((sc.graphs.get ⟨i1, hp1⟩).nodes ++
            (sc.graphs.get ⟨i2, hp2⟩).nodes).erase n2a).erase n2b,
          removeSecond (fun e => decide (connects n1a n1b e))
            ((sc.graphs.get ⟨i1, hp1⟩).edges ++
              ((sc.graphs.get ⟨i2, hp2⟩).edges.map (rewireEdge n2a n1a)).map
                (rewireEdge n2b n1b)) false⟩]⟩ : Scene) =
        (removeTwo rewired i1 i2).flatMap Graph.nodes ++
        (((sc.graphs.get ⟨i1, hp1⟩).nodes ++
          (sc.graphs.get ⟨i2, hp2⟩).nodes).erase n2a).erase n2b := by
      show ((_ : List Graph) ++ [(_ : Graph)]).flatMap Graph.nodes = _
      rw [List.flatMap_append, List.flatMap_cons, List.flatMap_nil, List.append_nil]
    rw [hAN]
    exact (List.nodup_append.mp hbignd).1
  · intro c hc e he
    rcases List.mem_append.mp hc with hcl | hcr
    · obtain ⟨k, hk, _, _, rfl⟩ := hkeptc c hcl
      exact hsw.2.1 _ (hgetmem k hk) e he
    · rw [List.mem_singleton] at hcr
      subst hcr
      rcases List.mem_append.mp (hcov1 e he) with he1 | he2
      · have hint := hg1int e he1
        have hnia := hNoInc n2a hn2aG2 i1 hp1 hne e he1
        have hnib := hNoInc n2b hn2bG2 i1 hp1 hne e he1
        constructor
        · exact hmemNR _ (Or.inl hint.1) (fun h => hnia (Or.inl h))
            (fun h => hnib (Or.inl h))
        · exact hmemNR _ (Or.inl hint.2) (fun h => hnia (Or.inr h))
            (fun h => hnib (Or.inr h))
      · have hend := hend2 e he2
        have hnia := hNoA e he2
        have hnib := hNoB e he2
        constructor
        · rcases hend.1 with h | h
          · rcases List.mem_cons.mp h with h1 | h1
            · exact hmemNR _ (Or.inl (h1 ▸ hn1aG1)) (h1 ▸ hn1a_n2a) (h1 ▸ hn1a_n2b)
            · exact hmemNR _ (Or.inr h1) (fun hh => hnia (Or.inl hh))
                (fun hh => hnib (Or.inl hh))
          · exact hmemNR _ (Or.inl (h ▸ hn1bG1)) (h ▸ hn1b_n2a) (h ▸ hn1b_n2b)
        · rcases hend.2 with h | h
          · rcases List.mem_cons.mp h with h1 | h1
            · exact hmemNR _ (Or.inl (h1 ▸ hn1aG1)) (h1 ▸ hn1a_n2a) (h1 ▸ hn1a_n2b)
            · exact hmemNR _ (Or.inr h1) (fun hh => hnia (Or.inr hh))
                (fun hh => hnib (Or.inr hh))
          · exact hmemNR _ (Or.inl (h ▸ hn1bG1)) (h ▸ hn1b_n2a) (h ▸ hn1b_n2b)
  · intro c hc e he
    rcases List.mem_append.mp hc with hcl | hcr
    · obtain ⟨k, hk, _, _, rfl⟩ := hkeptc c hcl
      exact hsw.2.2 _ (hgetmem k hk) e he
    · rw [List.mem_singleton] at hcr
      subst hcr
      rcases List.mem_append.mp (hcov1 e he) with he1 | he2
      · exact hg1ns e he1
      · exact hns2 e he2
  · intro c hc
    rcases List.mem_append.mp hc with hcl | hcr
    · obtain ⟨k, hk, _, _, rfl⟩ := hkeptc c hcl
      exact hconn _ (hgetmem k hk)
    · rw [List.mem_singleton] at hcr
      subst hcr
      intro a ha _ b hb _
      exact reaches_trans _ (hreachn1 a ha) (reaches_symm _ (hreachn1 b hb))

theorem WF_joinFour {sc : Scene} (hw : WF sc) (n1a n1b n2a n2b : ℕ)
    (hsel : joinSelectionOK sc n1a n1b n2a n2b) :
    WF (joinFour sc n1a n1b n2a n2b).1 := by
  obtain ⟨hab, hpair1, hcd, hpair2⟩ := hsel
  unfold joinFour
  cases hfa : findRootParent sc n1a with
  | none => exact hw
  | some i1a =>
    cases hfb : findRootParent sc n1b with
    | none => exact hw
    | some i1b =>
      cases hfc : findRootParent sc n2a with
      | none => exact hw
      | some i2a =>
        cases hfd : findRootParent sc n2b with
        | none => exact hw
        | some i2b =>
          have h1ab : i1b = i1a := by
            rw [hfa, hfb] at hpair1
            exact (Option.some.inj hpair1).symm
          have h2ab : i2b = i2a := by
            rw [hfc, hfd] at hpair2
            exact (Option.some.inj hpair2).symm
          by_cases hg : i1a ≠ i2a ∧ i1a ≠ i2b ∧ i1b ≠ i2a ∧ i1b ≠ i2b
          · show WF ((if i1a ≠ i2a ∧ i1a ≠ i2b ∧ i1b ≠ i2a ∧ i1b ≠ i2b
              then (_ : Scene × Bool) else _).1)
            rw [if_pos hg]
            exact WF_joinFour_core hw hfa (h1ab ▸ hfb) hfc (h2ab ▸ hfd)
              hg.1 hab hcd rfl
          · show WF ((if i1a ≠ i2a ∧ i1a ≠ i2b ∧ i1b ≠ i2a ∧ i1b ≠ i2b
              then (_ : Scene × Bool) else _).1)
            rw [if_neg hg]
            exact hw

theorem WF_applyOp {sc : Scene} (hw : WF sc) (op : Op) : WF (applyOp sc op) := by
  cases op with
  | delNode x => exact WF_deleteNode hw x
  | delEdge gi ei => exact WF_deleteEdge hw gi ei
  | joinTwoNodes n1 n2 => exact WF_joinTwo hw n1 n2
  | joinFourNodes a b c d =>
    show WF (if joinSelectionOK sc a b c d then (joinFour sc a b c d).1 else sc)
    by_cases hsel : joinSelectionOK sc a b c d
    · rw [if_pos hsel]
      exact WF_joinFour hw a b c d hsel
    · rw [if_neg hsel]
      exact hw
  | rotate gi amount relative => exact hw

theorem WF_applyOps {sc : Scene} (hw : WF sc) (ops : List Op) :
    WF (applyOps sc ops) := by
  induction ops generalizing sc with
  | nil => exact hw
  | cons op ops ih => exact ih (WF_applyOp hw op)

/-- C1: starting from a well-formed canvas (globally unique node ids,
edges internal to their own container, no self-loops, every container
connected), after an arbitrary sequence of node deletions, edge
deletions (each with its `searchAndSeparate` call), two-node joins,
four-node joins (for selections the join mode can produce) and
rotations, every container remains connected — all pairs of its node
children are mutually reachable via its edge children — and two nodes
lie in the same container if and only if the traversal from one
reaches the other via that container's edge children. -/
theorem C1_connectivity_invariant (s : Scene) (ops : List Op) (hw : WF s) :
    (∀ g ∈ (applyOps s ops).graphs, Connected g) ∧
    (∀ (i j : ℕ) (hi : i < (applyOps s ops).graphs.length)
        (hj : j < (applyOps s ops).graphs.length),
      ∀ a ∈ ((applyOps s ops).graphs.get ⟨i, hi⟩).nodes,
      ∀ b ∈ ((applyOps s ops).graphs.get ⟨j, hj⟩).nodes,
        (Reach ((applyOps s ops).graphs.get ⟨i, hi⟩).edges a b ↔ i = j)) := by
  obtain ⟨hnd, hint, hns, hconn⟩ := WF_applyOps hw ops
  refine ⟨fun g hg => hconn g hg, ?_⟩
  intro i j hi hj a ha b hb
  constructor
  · intro hr
    by_contra hij
    have hreach : Reaches ((applyOps s ops).graphs.get ⟨i, hi⟩).edges a b :=
      reach_iff_reaches.mp hr
    have hbmem : b ∈ ((applyOps s ops).graphs.get ⟨i, hi⟩).nodes := by
      rcases reaches_endpoint hreach with h | ⟨e, he, hince⟩
      · exact h.symm ▸ ha
      · have hint2 := hint _ (List.get_mem _ _ _) e he
        rcases hince with h | h
        · exact h ▸ hint2.1
        · exact h ▸ hint2.2
    exact nodup_flatMap_disjoint_ne Graph.nodes
      (applyOps s ops).graphs hnd hi hj hij hbmem hb
  · intro hij
    subst hij
    exact hconn _ (List.get_mem _ _ _) a ha b hb

/-- Witness for C1: a single container with nodes 0, 1 and the edge
0–1 is well-formed, and the invariant holds after deleting that edge
(which splits the container in two). -/
theorem C1_connectivity_invariant_witness :
    WF (⟨[⟨[0, 1], [⟨0, 1⟩]⟩]⟩ : Scene) ∧
    (∀ g ∈ (applyOps (⟨[⟨[0, 1], [⟨0, 1⟩]⟩]⟩ : Scene) [Op.delEdge 0 0]).graphs,
      Connected g) :=
  ⟨by decide, (C1_connectivity_invariant (⟨[⟨[0, 1], [⟨0, 1⟩]⟩]⟩ : Scene)
    [Op.delEdge 0 0] (by decide)).1⟩

end Canvas
